import Mathlib

/-!
# Module registry of `src/init.js`

A shallow embedding of the module loader in `src/init.js`: the registry
(`moduleMap`, `requirements`, `initialProcessCompleted`), registration
(`define`), lookup (`getModule`), the initializer wrapper (`initializeModule`,
`initializeModuleByName`), the resolver (`processModule`) and the bulk run
(`processModules`).

Modelling conventions.
* A JavaScript `Map<string, Module>` is the list of its records in insertion
  order; a record's key is its `_name`.  `Map.get` is `lookup`.
* A module object is mutable and shared by reference.  A reference is the
  record's key: writing a field is `modify` on the list, reading through a
  held reference is a fresh `lookup`.
* A thrown exception leaves the mutations made so far in place, so every
  operation returns the final registry next to its `Completion`.
* Initializers are callbacks that do not call back into the loader: they are
  functions of what they can read (the `getModule` accessor, the module record
  and the arguments) to an `Outcome`.
* `processModule` is recursive; the embedding bounds the depth of that
  recursion by a `fuel` argument and answers `Completion.diverge` when the
  bound is hit.
* The field `Registry.calls` is instrumentation: a log of the initializer
  invocations, in the order they happen.
-/

namespace Dig

/-- The enum `ModuleState` (source lines 5-10). -/
inductive ModuleState where
  | Unprocessed
  | Waiting
  | Processed
  | Error
deriving DecidableEq, Repr

/-- The numeric value of a state: `Unprocessed` is `0`, the only falsy one. -/
def ModuleState.toNat : ModuleState → Nat
  | .Unprocessed => 0
  | .Waiting => 1
  | .Processed => 2
  | .Error => 3

/-- A thrown JavaScript error object.  `error message` is an `Error` carrying
that message; `typeError` is the engine's `TypeError` for reading a property of
`undefined`, whose message is engine-defined. -/
inductive JsError where
  | error (message : String)
  | typeError
deriving DecidableEq, Repr

/-- The data fields of a module record, as a callback that receives the record
can read them. -/
structure ModuleInfo where
  _name : String
  _state : ModuleState
  _requirements : List String
  _error : Option JsError
deriving DecidableEq, Repr

/-- The JavaScript values that occur in the loader. -/
inductive JsValue where
  | undefined
  | number (n : Int)
  | string (s : String)
  | record (module : ModuleInfo)
deriving DecidableEq, Repr

/-- How a call of an initializer ends: it returns a value or throws an `Error`
with a message (the typedef of `Module` declares `_error` an `Error`). -/
inductive Outcome where
  | returned (value : JsValue)
  | threw (message : String)
deriving DecidableEq, Repr

/-- The typedef `ModuleInitializer` (source line 13):
`(getModule, module, ...args) => any`. -/
abbrev ModuleInitializer : Type :=
  (String → Option ModuleInfo) → ModuleInfo → List JsValue → Outcome

/-- The typedef `Module` (source line 17). -/
structure Module where
  _name : String
  _state : ModuleState
  _requirements : List String
  _initializer : ModuleInitializer
  _error : Option JsError

/-- The data fields of a record. -/
def Module.info (m : Module) : ModuleInfo :=
  { _name := m._name, _state := m._state, _requirements := m._requirements, _error := m._error }

/-- One logged call of an initializer: the module it belongs to, the arguments
after `getModule` and `module`, and what `getModule` answered at that moment. -/
structure Invocation where
  name : String
  args : List JsValue
  getModule : String → Option ModuleInfo

/-- The loader's global state (source lines 23, 27, 109) and the call log. -/
structure Registry where
  moduleMap : List Module
  requirements : List String
  initialProcessCompleted : Bool
  calls : List Invocation

/-- The state when the script has just been loaded. -/
def Registry.empty : Registry :=
  { moduleMap := [], requirements := [], initialProcessCompleted := false, calls := [] }

/-- How a call ends: normally with a value, by a thrown error, or (in the
embedding only) by exhausting the recursion bound. -/
inductive Completion (α : Type) where
  | normal (value : α)
  | abrupt (err : JsError)
  | diverge

/-- `Map.get` on the list of records. -/
def lookup : List Module → String → Option Module
  | [], _ => none
  | m :: ms, name => if m._name = name then some m else lookup ms name

/-- A field write through a reference to the record keyed `name`. -/
def modify (f : Module → Module) (name : String) : List Module → List Module
  | [] => []
  | m :: ms => (if m._name = name then f m else m) :: modify f name ms

/-- `Set.add` on a set kept in insertion order. -/
def setAdd (s : List String) (x : String) : List String :=
  if x ∈ s then s else s ++ [x]

/-- The double quote character as a string. -/
def dq : String := String.singleton (Char.ofNat 34)

/-- The template literal `"${m}"`. -/
def quoted (m : String) : String := dq ++ m ++ dq

/-- `getModule` (source lines 58-60). -/
def getModule (r : Registry) (name : String) : Option Module :=
  lookup r.moduleMap name

/-- What the `getModule` accessor lets a callback read in state `r`. -/
def view (r : Registry) : String → Option ModuleInfo :=
  fun name => (getModule r name).map Module.info

/-- The assignment `module._state = s`. -/
def setState (r : Registry) (name : String) (s : ModuleState) : Registry :=
  { r with moduleMap := modify (fun m => { m with _state := s }) name r.moduleMap }

/-- The assignment `module._error = err`. -/
def setError (r : Registry) (name : String) (err : JsError) : Registry :=
  { r with moduleMap := modify (fun m => { m with _error := some err }) name r.moduleMap }

/-- `initializeModule` (source lines 73-87).  `module` is what the caller read
from the map, so `none` is `undefined`.  The `catch` block rewrites the
message of the caught error; the error is then also printed, which has no
effect on the registry. -/
def initializeModule (r : Registry) (module : Option Module) (args : List JsValue) :
    Completion Unit × Registry :=
  match module with
  | none => (.abrupt .typeError, r)
  | some module =>
    if module._state ≠ .Unprocessed then
      (.abrupt (.error ("Module " ++ quoted module._name ++ " has already been processed")), r)
    else
      let r1 := { r with calls := r.calls ++ [⟨module._name, args, view r⟩] }
      match module._initializer (view r) module.info args with
      | .returned _ => (.normal (), setState r1 module._name .Processed)
      | .threw message =>
        (.normal (), setError (setState r1 module._name .Error) module._name
          (.error ("[Module initialization " ++ module._name ++ "] " ++ message)))

/-- `initializeModuleByName` (source lines 65-67), exposed as
`window.initializeModule`. -/
def initializeModuleByName (r : Registry) (name : String) : Completion Unit × Registry :=
  initializeModule r (getModule r name) []

/-- The `Array.map` of source lines 143-144 over the stored requirements, with
`f` the callback: left to right, stopping at the first call that does not
return. -/
def mapRequirements (f : Registry → String → Completion Module × Registry) :
    List String → Registry → Completion (List Module) × Registry
  | [], r => (.normal [], r)
  | req :: rest, r =>
    match f r req with
    | (.normal module, r1) =>
      match mapRequirements f rest r1 with
      | (.normal modules, r2) => (.normal (module :: modules), r2)
      | (.abrupt err, r2) => (.abrupt err, r2)
      | (.diverge, r2) => (.diverge, r2)
    | (.abrupt err, r1) => (.abrupt err, r1)
    | (.diverge, r1) => (.diverge, r1)

/-- The message of the circular-dependency error (source line 139). -/
def circularMessage (requiredBy : List String) (name : String) : String :=
  "Circular dependency! Dependency chain: " ++
    " > ".intercalate ((requiredBy ++ [name]).map quoted)

/-- `processModule` (source lines 134-151).  At both call sites the `module`
parameter is `moduleMap.get(name)`.  The returned module is the record as it
stands when the call returns. -/
def processModule : Nat → Registry → String → List String → Completion Module × Registry
  | 0, r, _, _ => (.diverge, r)
  | fuel + 1, r, name, requiredBy =>
    match getModule r name with
    | none => (.abrupt (.error ("No " ++ quoted name ++ " module defined")), r)
    | some module =>
      if module._state = .Waiting then
        (.abrupt (.error (circularMessage requiredBy name)), r)
      else if module._state = .Unprocessed then
        match mapRequirements (fun r1 req => processModule fuel r1 req (requiredBy ++ [name]))
            module._requirements (setState r name .Waiting) with
        | (.normal modules, r2) =>
          let r3 := setState r2 name .Unprocessed
          match initializeModule r3 (getModule r3 name) (modules.map (fun m => .record m.info)) with
          | (.normal _, r4) => (.normal ((getModule r4 name).getD module), r4)
          | (.abrupt err, r4) => (.abrupt err, r4)
          | (.diverge, r4) => (.diverge, r4)
        | (.abrupt err, r2) => (.abrupt err, r2)
        | (.diverge, r2) => (.diverge, r2)
      else (.normal module, r)

/-- The `for ... of moduleMap.entries()` loop of `processModules`. -/
def processEntries (fuel : Nat) : List String → Registry → Completion Unit × Registry
  | [], r => (.normal (), r)
  | name :: rest, r =>
    match processModule fuel r name [] with
    | (.normal _, r1) => processEntries fuel rest r1
    | (.abrupt err, r1) => (.abrupt err, r1)
    | (.diverge, r1) => (.diverge, r1)

/-- `processModules` (source lines 110-115).  The function is `async` and has
no `await`: its body runs synchronously, and an error thrown in it rejects the
returned promise instead of reaching the caller.  `normal` is a fulfilled
promise, `abrupt err` one rejected with `err`. -/
def processModules (fuel : Nat) (r : Registry) : Completion Unit × Registry :=
  match processEntries fuel (r.moduleMap.map (·._name)) r with
  | (.normal _, r1) => (.normal (), { r1 with initialProcessCompleted := true })
  | (.abrupt err, r1) => (.abrupt err, r1)
  | (.diverge, r1) => (.diverge, r1)

/-- `define` (source lines 34-53).  The promise of `processModules` is
dropped, so a rejection does not reach the caller of `define`. -/
def define (fuel : Nat) (r : Registry) (name : String) (reqs : List String)
    (fn : ModuleInitializer) : Completion Unit × Registry :=
  if (getModule r name).isSome then
    (.abrupt (.error ("Module " ++ quoted name ++ " cannot be redefined")), r)
  else
    let module : Module :=
      { _name := name, _state := .Unprocessed, _requirements := reqs.drop 2,
        _initializer := fn, _error := none }
    let r1 := { r with moduleMap := r.moduleMap ++ [module] }
    let r2 := { r1 with requirements := module._requirements.foldl setAdd r1.requirements }
    if r2.initialProcessCompleted then
      match processModules fuel r2 with
      | (.diverge, r3) => (.diverge, r3)
      | (_, r3) => (.normal (), r3)
    else (.normal (), r2)

/-! ## Vocabulary of the statements -/

/-- A state in which a module has been handled: `Processed` or `Error`. -/
def terminal (s : ModuleState) : Prop := s = .Processed ∨ s = .Error

instance (s : ModuleState) : Decidable (terminal s) := by
  unfold terminal; infer_instance

/-- The part of a record that registration fixes: the record with its state
and error cleared. -/
def Module.static (m : Module) : Module :=
  { m with _state := .Unprocessed, _error := none }

/-- The initializer invocations logged in `r'` beyond those logged in `r`. -/
def newCalls (r r' : Registry) : List Invocation :=
  r'.calls.drop r.calls.length

/-- The requirement edge: `a` is registered and lists `b` among its stored
requirements. -/
def Dep (r : Registry) (a b : String) : Prop :=
  ∃ m, getModule r a = some m ∧ b ∈ m._requirements

/-- Whether `name` is registered with a module in state `Unprocessed`. -/
def isUnprocessed (r : Registry) (name : String) : Bool :=
  match getModule r name with
  | some m => decide (m._state = .Unprocessed)
  | none => false

/-- The number of registered names whose module is `Unprocessed`. -/
def unprocessedCount (r : Registry) : Nat :=
  (r.moduleMap.map (·._name)).countP (isUnprocessed r)

/-- Every stored requirement name is registered. -/
def Closed (r : Registry) : Prop :=
  ∀ n m, getModule r n = some m → ∀ req ∈ m._requirements, (getModule r req).isSome

/-- The stored-requirement graph has no cycle. -/
def Acyclic (r : Registry) : Prop :=
  ∀ n, ¬ Relation.TransGen (Dep r) n n

/-- What a call of an initializer saw: one argument per stored requirement, in
declared order, each the requirement's record, in state `Processed` or `Error`
at that moment. -/
def Ordered (reqs : List String) (c : Invocation) : Prop :=
  List.Forall₂ (fun req a => ∃ i, c.getModule req = some i ∧ a = JsValue.record i ∧
    terminal i._state) reqs c.args

/-- The order law for one call of the initializer of the record `m`. -/
def OrderedCall (m : Module) (c : Invocation) : Prop :=
  Ordered m._requirements c

/-- The record a module is left with once its initializer has run with
outcome `o` (source lines 79 and 82-84). -/
def finished (m : Module) (o : Outcome) : Module :=
  match o with
  | .returned _ => { m with _state := .Processed }
  | .threw message =>
    { m with _state := .Error,
             _error := some (.error ("[Module initialization " ++ m._name ++ "] " ++ message)) }

/-- How the loader may change a registry, with `P` a property of every call it
logs.  The registered records keep their order, name, requirements and
initializer; the requirement-name set is kept; a module that is not
`Unprocessed` is not touched, and one that is `Unprocessed` afterwards has not
been touched; every logged call is for a module that was `Unprocessed` and is
left as its initializer's outcome dictates; a module that a call saw handled
is still the same record; no module is called twice; every module handled in
between has been called. -/
structure EvolvesBy (P : Module → Invocation → Prop) (r r' : Registry) : Prop where
  frame : r'.moduleMap.map Module.static = r.moduleMap.map Module.static
  reqs : r'.requirements = r.requirements
  settled : ∀ n m, getModule r n = some m → m._state ≠ .Unprocessed → getModule r' n = some m
  untouched : ∀ n m, getModule r' n = some m → m._state = .Unprocessed → getModule r n = some m
  calls_eq : r'.calls = r.calls ++ newCalls r r'
  nodup : ((newCalls r r').map (·.name)).Nodup
  fresh : ∀ c ∈ newCalls r r', ∃ m, getModule r c.name = some m ∧ m._state = .Unprocessed ∧
    getModule r' c.name = some (finished m (m._initializer c.getModule m.info c.args)) ∧ P m c
  snapshot : ∀ c ∈ newCalls r r', ∀ k i, c.getModule k = some i → terminal i._state →
    view r' k = some i
  complete : ∀ n m m', getModule r n = some m → m._state = .Unprocessed →
    getModule r' n = some m' → terminal m'._state → n ∈ (newCalls r r').map (·.name)

/-- Evolution with nothing said about the calls' arguments. -/
def Evolves (r r' : Registry) : Prop := EvolvesBy (fun _ _ => True) r r'

/-- Evolution in which every logged call obeys the order law. -/
def Resolves (r r' : Registry) : Prop := EvolvesBy OrderedCall r r'

/-- No module is left `Waiting` that was not `Waiting` before. -/
def NoNewWaiting (r r' : Registry) : Prop :=
  ∀ n x, getModule r' n = some x → x._state = .Waiting → getModule r n = some x

/-- The second half of `processModule` on an `Unprocessed` module: what follows
the walk over the requirements (source lines 146-150). -/
def afterRequirements (name : String) (module : Module) :
    Completion (List Module) × Registry → Completion Module × Registry
  | (.normal modules, r2) =>
    let r3 := setState r2 name .Unprocessed
    match initializeModule r3 (getModule r3 name) (modules.map (fun m => .record m.info)) with
    | (.normal _, r4) => (.normal ((getModule r4 name).getD module), r4)
    | (.abrupt err, r4) => (.abrupt err, r4)
    | (.diverge, r4) => (.diverge, r4)
  | (.abrupt err, r2) => (.abrupt err, r2)
  | (.diverge, r2) => (.diverge, r2)

/-- Whether a call returned. -/
def Completion.isNormal {α : Type} : Completion α → Bool
  | .normal _ => true
  | _ => false

/-- The error a call threw, if it threw. -/
def Completion.thrown {α : Type} : Completion α → Option JsError
  | .abrupt err => some err
  | _ => none

/-- The module `a` is registered, `Unprocessed`, and its first stored
requirement is `b`. -/
def Link (r : Registry) (a b : String) : Prop :=
  ∃ m, getModule r a = some m ∧ m._state = .Unprocessed ∧ m._requirements.head? = some b

/-- The registry with the modules `names` marked `Waiting`, in that order. -/
def markWaiting (r : Registry) (names : List String) : Registry :=
  names.foldl (fun r n => setState r n .Waiting) r

/-- A top-level call into the loader: `define`, a resolve of one name with an
empty visited path, the bulk run, or `window.initializeModule`. -/
inductive Call where
  | define (name : String) (reqs : List String) (fn : ModuleInitializer)
  | processModule (name : String)
  | processModules
  | initializeModuleByName (name : String)

/-- The registry a top-level call leaves, whether it returns or throws. -/
def perform (fuel : Nat) (r : Registry) : Call → Registry
  | .define name reqs fn => (define fuel r name reqs fn).2
  | .processModule name => (processModule fuel r name []).2
  | .processModules => (processModules fuel r).2
  | .initializeModuleByName name => (initializeModuleByName r name).2

/-- The registry after a sequence of top-level calls. -/
def run (fuel : Nat) (calls : List Call) (r : Registry) : Registry :=
  calls.foldl (perform fuel) r

/-- Every logged call is for a registered module that is now handled, and no
module was called twice. -/
def CalledOnce (r : Registry) : Prop :=
  (r.calls.map (·.name)).Nodup ∧
    ∀ c ∈ r.calls, ∃ m, getModule r c.name = some m ∧ terminal m._state

/-- How any top-level call may change a registry: a module that is not
`Unprocessed` is not touched, the records registered so far keep their order,
name, requirements and initializer (records may be added after them), calls
are only added to the log, and every added call is for a module that is now
handled. -/
structure Advances (r r' : Registry) : Prop where
  settled : ∀ n m, getModule r n = some m → m._state ≠ .Unprocessed → getModule r' n = some m
  grows : r.moduleMap.map Module.static <+: r'.moduleMap.map Module.static
  calls_eq : r'.calls = r.calls ++ newCalls r r'
  handled : ∀ c ∈ newCalls r r', ∃ m, getModule r' c.name = some m ∧ terminal m._state

/-- The record `define` creates (source lines 41-46). -/
def newModule (name : String) (reqs : List String) (fn : ModuleInitializer) : Module :=
  { _name := name, _state := .Unprocessed, _requirements := reqs.drop 2,
    _initializer := fn, _error := none }

/-- The registry `define` has built when it reaches the test of
`initialProcessCompleted` (source lines 47-49). -/
def registered (r : Registry) (name : String) (reqs : List String) (fn : ModuleInitializer) :
    Registry :=
  { r with moduleMap := r.moduleMap ++ [newModule name reqs fn],
           requirements := (reqs.drop 2).foldl setAdd r.requirements }

/-- The error of source line 136, for the name `name`. -/
def undefinedError (name : String) : JsError :=
  .error ("No " ++ quoted name ++ " module defined")

/-- The error of source line 139, for the visited path `requiredBy` and the
name `name`. -/
def circularError (requiredBy : List String) (name : String) : JsError :=
  .error (circularMessage requiredBy name)

/-- An initializer that returns `v` whatever it is given. -/
def constInit (v : JsValue) : ModuleInitializer := fun _ _ _ => .returned v

/-- An initializer that throws `new Error(message)` whatever it is given. -/
def throwInit (message : String) : ModuleInitializer := fun _ _ _ => .threw message

/-- An initializer written as `(getModule, module, a) => a + 1`: it adds one
to a number, and appends `1` to the text of anything else. -/
def addOne : ModuleInitializer := fun _ _ args =>
  match args with
  | [.number n] => .returned (.number (n + 1))
  | [.string s] => .returned (.string (s ++ "1"))
  | [.record _] => .returned (.string "[object Object]1")
  | _ => .returned .undefined

/-- The registry after the given `define` calls, made in order on a freshly
loaded script (before the bulk run, so none of them resolves anything). -/
def registryOf (defs : List (String × List String × ModuleInitializer)) : Registry :=
  defs.foldl (fun r d => (define 0 r d.1 d.2.1 d.2.2).2) Registry.empty

/-- The names, states and errors of the registered modules, in registration
order. -/
def Registry.summary (r : Registry) : List (String × ModuleState × Option JsError) :=
  r.moduleMap.map (fun m => (m._name, m._state, m._error))

/-- The log of calls as names and arguments, oldest first. -/
def Registry.callLog (r : Registry) : List (String × List JsValue) :=
  r.calls.map (fun c => (c.name, c.args))

/-- A diamond: `D` requires `B` and `C`, which both require `A`. -/
def diamond : Registry :=
  registryOf
    [("D", ["require", "exports", "B", "C"], constInit .undefined),
     ("B", ["require", "exports", "A"], constInit .undefined),
     ("C", ["require", "exports", "A"], constInit .undefined),
     ("A", ["require", "exports"], constInit (.number 1))]

/-- The scenario of the specification: `a` returns `1`, `b` requires `a` and
returns its argument plus one. -/
def abRegistry : Registry :=
  registryOf
    [("a", ["require", "exports"], constInit (.number 1)),
     ("b", ["require", "exports", "a"], addOne)]

/-- A module `b` whose second stored requirement is not registered. -/
def missingDep : Registry :=
  registryOf
    [("a", ["require", "exports"], constInit (.number 1)),
     ("b", ["require", "exports", "a", "zzz"], constInit .undefined)]

/-- The cycle `A → B → C → A`. -/
def cycle3 : Registry :=
  registryOf
    [("A", ["require", "exports", "B"], constInit .undefined),
     ("B", ["require", "exports", "C"], constInit .undefined),
     ("C", ["require", "exports", "A"], constInit .undefined)]

/-- A module `D` that requires `B`, whose initializer throws. -/
def failing : Registry :=
  registryOf
    [("B", ["require", "exports"], throwInit "boom"),
     ("D", ["require", "exports", "B"], constInit .undefined)]

/-- A rank of the names of `failing` that its requirement edge lowers. -/
def failingRank (n : String) : Nat :=
  if n = "D" then 1 else 0

/-- A session: two registrations, the bulk run, a repeated resolve, a direct
initialization of a handled module, a late registration and a second bulk
run. -/
def session : List Call :=
  [.define "a" ["require", "exports"] (constInit (.number 1)),
   .define "b" ["require", "exports", "a"] addOne,
   .processModules,
   .processModule "b",
   .initializeModuleByName "a",
   .define "c" ["require", "exports", "a", "b"] (throwInit "late"),
   .processModules]

/-- A registry with the one module `M`, which requires nothing. -/
def single : Registry :=
  registryOf [("M", ["require", "exports"], constInit .undefined)]

/-! ## Lookup and update -/

/-- The test `if (module._state)` of source line 74 and the test
`if (!module._state)` of line 141 tell `Unprocessed` from the other states. -/
theorem toNat_eq_zero_iff (s : ModuleState) : s.toNat = 0 ↔ s = .Unprocessed := by
  cases s <;> simp [ModuleState.toNat]

theorem lookup_name {l : List Module} {n : String} {m : Module} (h : lookup l n = some m) :
    m._name = n := by
  induction l with
  | nil => simp [lookup] at h
  | cons x xs ih =>
    simp only [lookup] at h
    split at h
    · cases h; assumption
    · exact ih h

theorem lookup_isSome_iff {l : List Module} {n : String} :
    (lookup l n).isSome ↔ n ∈ l.map (·._name) := by
  induction l with
  | nil => simp [lookup]
  | cons x xs ih =>
    simp only [lookup, List.map_cons, List.mem_cons]
    split
    · rename_i h; simp [h]
    · rename_i h
      rw [ih]
      constructor
      · intro h'; exact Or.inr h'
      · rintro (h' | h')
        · exact absurd h'.symm h
        · exact h'

theorem lookup_modify {f : Module → Module} (hf : ∀ m, (f m)._name = m._name)
    (l : List Module) (n k : String) :
    lookup (modify f n l) k = if k = n then (lookup l k).map f else lookup l k := by
  induction l with
  | nil => simp [lookup, modify]
  | cons x xs ih =>
    simp only [modify, lookup]
    by_cases hx : x._name = n
    · simp only [hx, if_true, hf]
      by_cases hk : n = k
      · subst hk; simp
      · have hk' : ¬ k = n := fun h => hk h.symm
        simp only [hk, hk', if_false] at ih ⊢
        exact ih
    · simp only [hx, if_false]
      by_cases hk : x._name = k
      · have hk' : ¬ k = n := fun h => hx (hk.trans h)
        simp [hk, hk']
      · simp only [hk, if_false]
        exact ih

theorem modify_static {f : Module → Module} (hf : ∀ m, (f m).static = m.static)
    (l : List Module) (n : String) :
    (modify f n l).map Module.static = l.map Module.static := by
  induction l with
  | nil => rfl
  | cons x xs ih =>
    simp only [modify, List.map_cons, ih]
    split <;> simp [hf]

theorem static_names {l l' : List Module} (h : l'.map Module.static = l.map Module.static) :
    l'.map (·._name) = l.map (·._name) := by
  have := congrArg (List.map (·._name)) h
  simpa [List.map_map, Function.comp_def, Module.static] using this

theorem lookup_static {l l' : List Module} (h : l'.map Module.static = l.map Module.static)
    (n : String) : (lookup l' n).map Module.static = (lookup l n).map Module.static := by
  induction l generalizing l' with
  | nil =>
    cases l' with
    | nil => rfl
    | cons y ys => simp at h
  | cons x xs ih =>
    cases l' with
    | nil => simp at h
    | cons y ys =>
      simp only [List.map_cons, List.cons.injEq] at h
      have hn' : y.static._name = x.static._name := congrArg Module._name h.1
      have hn : y._name = x._name := hn'
      simp only [lookup, hn]
      split
      · simp [h.1]
      · exact ih h.2

theorem lookup_append (l₁ l₂ : List Module) (n : String) :
    lookup (l₁ ++ l₂) n = (lookup l₁ n).orElse (fun _ => lookup l₂ n) := by
  induction l₁ with
  | nil => simp [lookup]
  | cons x xs ih =>
    simp only [List.cons_append, lookup]
    split
    · simp
    · exact ih

@[simp] theorem getModule_setState (r : Registry) (n k : String) (s : ModuleState) :
    getModule (setState r n s) k =
      if k = n then (getModule r k).map (fun m => { m with _state := s }) else getModule r k := by
  unfold getModule setState
  exact lookup_modify (f := fun m => { m with _state := s }) (fun _ => rfl) _ _ _

@[simp] theorem getModule_setError (r : Registry) (n k : String) (e : JsError) :
    getModule (setError r n e) k =
      if k = n then (getModule r k).map (fun m => { m with _error := some e }) else getModule r k := by
  unfold getModule setError
  exact lookup_modify (f := fun m => { m with _error := some e }) (fun _ => rfl) _ _ _

@[simp] theorem getModule_withCalls (r : Registry) (cs : List Invocation) (k : String) :
    getModule { r with calls := cs } k = getModule r k := rfl

@[simp] theorem setState_calls (r : Registry) (n : String) (s : ModuleState) :
    (setState r n s).calls = r.calls := rfl

@[simp] theorem setError_calls (r : Registry) (n : String) (e : JsError) :
    (setError r n e).calls = r.calls := rfl

@[simp] theorem setState_requirements (r : Registry) (n : String) (s : ModuleState) :
    (setState r n s).requirements = r.requirements := rfl

@[simp] theorem setError_requirements (r : Registry) (n : String) (e : JsError) :
    (setError r n e).requirements = r.requirements := rfl

@[simp] theorem setState_flag (r : Registry) (n : String) (s : ModuleState) :
    (setState r n s).initialProcessCompleted = r.initialProcessCompleted := rfl

@[simp] theorem setError_flag (r : Registry) (n : String) (e : JsError) :
    (setError r n e).initialProcessCompleted = r.initialProcessCompleted := rfl

theorem setState_static (r : Registry) (n : String) (s : ModuleState) :
    (setState r n s).moduleMap.map Module.static = r.moduleMap.map Module.static :=
  modify_static (f := fun m => { m with _state := s }) (fun _ => rfl) _ _

theorem setError_static (r : Registry) (n : String) (e : JsError) :
    (setError r n e).moduleMap.map Module.static = r.moduleMap.map Module.static :=
  modify_static (f := fun m => { m with _error := some e }) (fun _ => rfl) _ _

theorem getModule_name {r : Registry} {n : String} {m : Module} (h : getModule r n = some m) :
    m._name = n := lookup_name h

theorem getModule_isSome_iff {r : Registry} {n : String} :
    (getModule r n).isSome ↔ n ∈ r.moduleMap.map (·._name) := lookup_isSome_iff


/-! ## The evolution relation -/

theorem newCalls_of_eq {r r' : Registry} {l : List Invocation} (h : r'.calls = r.calls ++ l) :
    newCalls r r' = l := by
  simp [newCalls, h]

theorem terminal_ne_unprocessed {s : ModuleState} (h : terminal s) : s ≠ .Unprocessed := by
  rcases h with h | h <;> simp [h]

theorem terminal_ne_waiting {s : ModuleState} (h : terminal s) : s ≠ .Waiting := by
  rcases h with h | h <;> simp [h]

theorem finished_terminal (m : Module) (o : Outcome) : terminal (finished m o)._state := by
  cases o
  · exact Or.inl rfl
  · exact Or.inr rfl

theorem finished_static (m : Module) (o : Outcome) : (finished m o).static = m.static := by
  cases o <;> rfl

theorem static_requirements {m m' : Module} (h : m.static = m'.static) :
    m._requirements = m'._requirements := by
  have h' : m.static._requirements = m'.static._requirements := congrArg Module._requirements h
  exact h'

theorem static_initializer {m m' : Module} (h : m.static = m'.static) :
    m._initializer = m'._initializer := by
  have h' : m.static._initializer = m'.static._initializer := congrArg Module._initializer h
  exact h'

theorem view_settled {r r' : Registry} {k : String} {i : ModuleInfo}
    (settled : ∀ n m, getModule r n = some m → m._state ≠ .Unprocessed → getModule r' n = some m)
    (h : view r k = some i) (hi : terminal i._state) : view r' k = some i := by
  unfold view at h ⊢
  cases hm : getModule r k with
  | none => rw [hm] at h; simp at h
  | some m =>
    rw [hm] at h
    simp only [Option.map_some', Option.some.injEq] at h
    have ht : terminal m._state := by
      rw [← h] at hi
      exact hi
    rw [settled k m hm (terminal_ne_unprocessed ht)]
    simp [h]

section
variable {P : Module → Invocation → Prop}

theorem EvolvesBy.of_calls {r r' : Registry} (new : List Invocation)
    (frame : r'.moduleMap.map Module.static = r.moduleMap.map Module.static)
    (reqs : r'.requirements = r.requirements)
    (settled : ∀ n m, getModule r n = some m → m._state ≠ .Unprocessed → getModule r' n = some m)
    (untouched : ∀ n m, getModule r' n = some m → m._state = .Unprocessed →
      getModule r n = some m)
    (calls_eq : r'.calls = r.calls ++ new)
    (nodup : (new.map (·.name)).Nodup)
    (fresh : ∀ c ∈ new, ∃ m, getModule r c.name = some m ∧ m._state = .Unprocessed ∧
      getModule r' c.name = some (finished m (m._initializer c.getModule m.info c.args)) ∧ P m c)
    (snapshot : ∀ c ∈ new, ∀ k i, c.getModule k = some i → terminal i._state →
      view r' k = some i)
    (complete : ∀ n m m', getModule r n = some m → m._state = .Unprocessed →
      getModule r' n = some m' → terminal m'._state → n ∈ new.map (·.name)) :
    EvolvesBy P r r' := by
  have hn : newCalls r r' = new := newCalls_of_eq calls_eq
  exact ⟨frame, reqs, settled, untouched, by rw [hn]; exact calls_eq, by rw [hn]; exact nodup,
    by rw [hn]; exact fresh, by rw [hn]; exact snapshot, by rw [hn]; exact complete⟩

theorem EvolvesBy.refl (r : Registry) : EvolvesBy P r r := by
  refine EvolvesBy.of_calls [] rfl rfl (fun _ _ h _ => h) (fun _ _ h _ => h) (by simp) (by simp)
    (by simp) (by simp) ?_
  intro n m m' h hU h' ht
  rw [h] at h'
  cases h'
  exact absurd hU (terminal_ne_unprocessed ht)

theorem EvolvesBy.mono {Q : Module → Invocation → Prop} {r r' : Registry}
    (hPQ : ∀ m c, P m c → Q m c) (h : EvolvesBy P r r') : EvolvesBy Q r r' := by
  refine ⟨h.frame, h.reqs, h.settled, h.untouched, h.calls_eq, h.nodup, ?_, h.snapshot,
    h.complete⟩
  intro c hc
  obtain ⟨m, h1, h2, h3, h4⟩ := h.fresh c hc
  exact ⟨m, h1, h2, h3, hPQ m c h4⟩

theorem EvolvesBy.names {r r' : Registry} (h : EvolvesBy P r r') :
    r'.moduleMap.map (·._name) = r.moduleMap.map (·._name) :=
  static_names h.frame

theorem EvolvesBy.backward {r r' : Registry} (h : EvolvesBy P r r') {n : String} {m' : Module}
    (hm : getModule r' n = some m') : ∃ m, getModule r n = some m ∧ m.static = m'.static := by
  have := lookup_static h.frame n
  unfold getModule at hm ⊢
  rw [hm] at this
  cases hl : lookup r.moduleMap n with
  | none => rw [hl] at this; simp at this
  | some m =>
    rw [hl] at this
    simp only [Option.map_some', Option.some.injEq] at this
    exact ⟨m, rfl, this.symm⟩

theorem EvolvesBy.forward {r r' : Registry} (h : EvolvesBy P r r') {n : String} {m : Module}
    (hm : getModule r n = some m) : ∃ m', getModule r' n = some m' ∧ m'.static = m.static := by
  have := lookup_static h.frame n
  unfold getModule at hm ⊢
  rw [hm] at this
  cases hl : lookup r'.moduleMap n with
  | none => rw [hl] at this; simp at this
  | some m' =>
    rw [hl] at this
    simp only [Option.map_some', Option.some.injEq] at this
    exact ⟨m', rfl, this⟩

theorem EvolvesBy.none_iff {r r' : Registry} (h : EvolvesBy P r r') (n : String) :
    getModule r' n = none ↔ getModule r n = none := by
  constructor
  · intro h'
    cases hm : getModule r n with
    | none => rfl
    | some m =>
      obtain ⟨m', hm', _⟩ := h.forward hm
      rw [h'] at hm'
      cases hm'
  · intro h'
    cases hm : getModule r' n with
    | none => rfl
    | some m =>
      obtain ⟨m', hm', _⟩ := h.backward hm
      rw [h'] at hm'
      cases hm'

theorem EvolvesBy.dep_iff {r r' : Registry} (h : EvolvesBy P r r') (a b : String) :
    Dep r' a b ↔ Dep r a b := by
  constructor
  · rintro ⟨m', hm', hb⟩
    obtain ⟨m, hm, hs⟩ := h.backward hm'
    exact ⟨m, hm, by rw [static_requirements hs]; exact hb⟩
  · rintro ⟨m, hm, hb⟩
    obtain ⟨m', hm', hs⟩ := h.forward hm
    exact ⟨m', hm', by rw [static_requirements hs]; exact hb⟩

theorem EvolvesBy.dep_eq {r r' : Registry} (h : EvolvesBy P r r') : Dep r' = Dep r := by
  funext a b
  exact propext (h.dep_iff a b)

theorem EvolvesBy.trans {a b c : Registry} (h₁ : EvolvesBy P a b) (h₂ : EvolvesBy P b c) :
    EvolvesBy P a c := by
  have hcalls : c.calls = a.calls ++ (newCalls a b ++ newCalls b c) := by
    rw [h₂.calls_eq, h₁.calls_eq, List.append_assoc]
  refine EvolvesBy.of_calls (newCalls a b ++ newCalls b c) (h₂.frame.trans h₁.frame)
    (h₂.reqs.trans h₁.reqs) ?_ ?_ hcalls ?_ ?_ ?_ ?_
  · intro n m hm hU
    exact h₂.settled n m (h₁.settled n m hm hU) hU
  · intro n m hm hU
    exact h₁.untouched n m (h₂.untouched n m hm hU) hU
  · rw [List.map_append, List.nodup_append]
    refine ⟨h₁.nodup, h₂.nodup, ?_⟩
    intro x hx1 hx2
    obtain ⟨c1, hc1, rfl⟩ := List.mem_map.1 hx1
    obtain ⟨c2, hc2, hname⟩ := List.mem_map.1 hx2
    obtain ⟨m1, _, _, hm', _⟩ := h₁.fresh c1 hc1
    obtain ⟨m, hm, hU, _⟩ := h₂.fresh c2 hc2
    have hname' : c2.name = c1.name := hname
    rw [hname', hm'] at hm
    cases hm
    exact terminal_ne_unprocessed (finished_terminal _ _) hU
  · intro x hx
    rcases List.mem_append.1 hx with hx | hx
    · obtain ⟨m, hm, hU, hm', hP⟩ := h₁.fresh x hx
      exact ⟨m, hm, hU,
        h₂.settled _ _ hm' (terminal_ne_unprocessed (finished_terminal _ _)), hP⟩
    · obtain ⟨m, hm, hU, hm', hP⟩ := h₂.fresh x hx
      exact ⟨m, h₁.untouched _ _ hm hU, hU, hm', hP⟩
  · intro x hx k i hk hi
    rcases List.mem_append.1 hx with hx | hx
    · exact view_settled h₂.settled (h₁.snapshot x hx k i hk hi) hi
    · exact h₂.snapshot x hx k i hk hi
  · intro n m m'' hm hU hm'' ht
    rw [List.map_append, List.mem_append]
    obtain ⟨m', hm', _⟩ := h₁.forward hm
    by_cases hU' : m'._state = .Unprocessed
    · exact Or.inr (h₂.complete n m' m'' hm' hU' hm'' ht)
    · have h2 := h₂.settled n m' hm' hU'
      rw [hm''] at h2
      cases h2
      exact Or.inl (h₁.complete n m m'' hm hU hm' ht)

/-- The last step of an initialization: the module `n`, `Unprocessed` so far,
is left as the outcome of its initializer dictates and one call is logged. -/
theorem evolves_finish {r r' : Registry} {n : String} {m : Module} {c : Invocation}
    (hm : getModule r n = some m) (hU : m._state = .Unprocessed)
    (frame : r'.moduleMap.map Module.static = r.moduleMap.map Module.static)
    (reqs : r'.requirements = r.requirements)
    (hcalls : r'.calls = r.calls ++ [c]) (hc : c.name = n) (hview : c.getModule = view r)
    (hget : ∀ k, getModule r' k =
      if k = n then some (finished m (m._initializer c.getModule m.info c.args))
      else getModule r k)
    (hP : P m c) : EvolvesBy P r r' := by
  have hsettled : ∀ k mk, getModule r k = some mk → mk._state ≠ .Unprocessed →
      getModule r' k = some mk := by
    intro k mk hk hne
    have hkn : k ≠ n := by
      rintro rfl
      rw [hm] at hk
      cases hk
      exact hne hU
    rw [hget, if_neg hkn]
    exact hk
  refine EvolvesBy.of_calls [c] frame reqs ?_ ?_ hcalls (by simp) ?_ ?_ ?_
  · intro k mk hk hne
    have hkn : k ≠ n := by
      rintro rfl
      rw [hm] at hk
      cases hk
      exact hne hU
    rw [hget, if_neg hkn]
    exact hk
  · intro k mk hk hkU
    have hkn : k ≠ n := by
      rintro rfl
      rw [hget, if_pos rfl] at hk
      cases hk
      exact terminal_ne_unprocessed (finished_terminal _ _) hkU
    rw [hget, if_neg hkn] at hk
    exact hk
  · intro x hx
    simp only [List.mem_singleton] at hx
    subst hx
    rw [hc]
    exact ⟨m, hm, hU, by rw [hget, if_pos rfl], hP⟩
  · intro x hx k i hk hi
    simp only [List.mem_singleton] at hx
    subst hx
    rw [hview] at hk
    exact view_settled hsettled hk hi
  · intro k mk mk' hk hkU hk' hkt
    by_cases hkn : k = n
    · simp [hkn, hc]
    · rw [hget, if_neg hkn, hk] at hk'
      cases hk'
      exact absurd hkU (terminal_ne_unprocessed hkt)

end

theorem NoNewWaiting.same (r : Registry) : NoNewWaiting r r := fun _ _ h _ => h

theorem NoNewWaiting.chain {a b c : Registry} (h₁ : NoNewWaiting a b) (h₂ : NoNewWaiting b c) :
    NoNewWaiting a c := fun n x hx hw => h₁ n x (h₂ n x hx hw) hw

/-! ## Unfolding the operations -/

theorem initializeModule_unprocessed {r : Registry} {n : String} {m : Module}
    (hm : getModule r n = some m) (hU : m._state = .Unprocessed) (args : List JsValue) :
    ∃ r', initializeModule r (some m) args = (.normal (), r') ∧
      r'.calls = r.calls ++ [⟨n, args, view r⟩] ∧
      (∀ k, getModule r' k =
        if k = n then some (finished m (m._initializer (view r) m.info args))
        else getModule r k) ∧
      r'.moduleMap.map Module.static = r.moduleMap.map Module.static ∧
      r'.requirements = r.requirements ∧
      r'.initialProcessCompleted = r.initialProcessCompleted := by
  have hn : m._name = n := getModule_name hm
  simp only [initializeModule, hU, ne_eq, not_true_eq_false, if_false, hn]
  cases ho : m._initializer (view r) m.info args with
  | returned v =>
    refine ⟨_, rfl, rfl, ?_, ?_, rfl, rfl⟩
    · intro k
      by_cases hk : k = n
      · subst hk; simp [hm, finished, ho]
      · simp [hk]
    · exact setState_static _ _ _
  | threw msg =>
    refine ⟨_, rfl, rfl, ?_, ?_, rfl, rfl⟩
    · intro k
      by_cases hk : k = n
      · subst hk; simp [hm, finished, ho, hn]
      · simp [hk]
    · exact (setError_static _ _ _).trans (setState_static _ _ _)

theorem processModule_zero (r : Registry) (name : String) (path : List String) :
    processModule 0 r name path = (.diverge, r) := rfl

theorem processModule_none {r : Registry} {name : String} (h : getModule r name = none)
    (fuel : Nat) (path : List String) :
    processModule (fuel + 1) r name path =
      (.abrupt (.error ("No " ++ quoted name ++ " module defined")), r) := by
  simp only [processModule, h]

theorem processModule_waiting {r : Registry} {name : String} {m : Module}
    (h : getModule r name = some m) (hW : m._state = .Waiting) (fuel : Nat) (path : List String) :
    processModule (fuel + 1) r name path =
      (.abrupt (.error (circularMessage path name)), r) := by
  simp only [processModule, h, hW, if_true]

theorem processModule_terminal {r : Registry} {name : String} {m : Module}
    (h : getModule r name = some m) (ht : terminal m._state) (fuel : Nat) (path : List String) :
    processModule (fuel + 1) r name path = (.normal m, r) := by
  simp only [processModule, h, terminal_ne_waiting ht, terminal_ne_unprocessed ht, if_false]

theorem processModule_unprocessed {r : Registry} {name : String} {m : Module}
    (h : getModule r name = some m) (hU : m._state = .Unprocessed) (fuel : Nat)
    (path : List String) :
    processModule (fuel + 1) r name path =
      afterRequirements name m
        (mapRequirements (fun r1 req => processModule fuel r1 req (path ++ [name]))
          m._requirements (setState r name .Waiting)) := by
  simp only [processModule, h, hU, if_true]
  rw [if_neg (by decide)]
  unfold afterRequirements
  rfl


/-! ## The walk over the requirements -/

section
variable {P : Module → Invocation → Prop}

theorem initializeModule_evolves (r : Registry) (n : String) (args : List JsValue) :
    Evolves r (initializeModule r (getModule r n) args).2 := by
  cases hm : getModule r n with
  | none => exact EvolvesBy.refl r
  | some m =>
    by_cases hU : m._state = .Unprocessed
    · obtain ⟨r', he, hcalls, hget, hframe, hreqs, _⟩ := initializeModule_unprocessed hm hU args
      rw [he]
      exact evolves_finish hm hU hframe hreqs hcalls rfl rfl hget trivial
    · simp only [initializeModule, ne_eq, hU, not_false_eq_true, if_true]
      exact EvolvesBy.refl r

theorem mapRequirements_evolves {f : Registry → String → Completion Module × Registry}
    (hf : ∀ r req, EvolvesBy P r (f r req).2) (reqs : List String) (r : Registry) :
    EvolvesBy P r (mapRequirements f reqs r).2 := by
  induction reqs generalizing r with
  | nil => exact EvolvesBy.refl r
  | cons req rest ih =>
    have h1 := hf r req
    cases hc : f r req with
    | mk c r1 =>
      rw [hc] at h1
      cases c with
      | normal m =>
        have h2 := ih r1
        simp only [mapRequirements, hc]
        cases hc2 : mapRequirements f rest r1 with
        | mk c2 r2 =>
          rw [hc2] at h2
          cases c2 <;> exact h1.trans h2
      | abrupt e => simpa only [mapRequirements, hc] using h1
      | diverge => simpa only [mapRequirements, hc] using h1

theorem mapRequirements_normal {f : Registry → String → Completion Module × Registry}
    (hev : ∀ r req, EvolvesBy P r (f r req).2)
    (hf : ∀ r req m r', f r req = (.normal m, r') →
      getModule r' req = some m ∧ terminal m._state ∧ NoNewWaiting r r')
    {reqs : List String} {r r' : Registry} {ms : List Module}
    (h : mapRequirements f reqs r = (.normal ms, r')) :
    List.Forall₂ (fun req m => getModule r' req = some m ∧ terminal m._state) reqs ms ∧
      NoNewWaiting r r' := by
  induction reqs generalizing r ms with
  | nil =>
    simp only [mapRequirements, Prod.mk.injEq, Completion.normal.injEq] at h
    obtain ⟨rfl, rfl⟩ := h
    exact ⟨List.Forall₂.nil, NoNewWaiting.same r⟩
  | cons req rest ih =>
    cases hc : f r req with
    | mk c r1 =>
      cases c with
      | normal m =>
        simp only [mapRequirements, hc] at h
        cases hc2 : mapRequirements f rest r1 with
        | mk c2 r2 =>
          rw [hc2] at h
          cases c2 with
          | normal ms' =>
            simp only [Prod.mk.injEq, Completion.normal.injEq] at h
            obtain ⟨rfl, rfl⟩ := h
            obtain ⟨hget, ht, hw⟩ := hf r req m r1 hc
            obtain ⟨hall, hw2⟩ := ih hc2
            have hev2 : EvolvesBy P r1 r2 := by
              have := mapRequirements_evolves hev rest r1
              rwa [hc2] at this
            exact ⟨List.Forall₂.cons
              ⟨hev2.settled _ _ hget (terminal_ne_unprocessed ht), ht⟩ hall, hw.chain hw2⟩
          | abrupt e => simp at h
          | diverge => simp at h
      | abrupt e => simp [mapRequirements, hc] at h
      | diverge => simp [mapRequirements, hc] at h

theorem with_unprocessed {m : Module} (hU : m._state = .Unprocessed) :
    ({ m with _state := .Unprocessed } : Module) = m := by
  cases m
  simp only at hU
  subst hU
  rfl

theorem evolves_setWaiting {r : Registry} {n : String} {m : Module}
    (hm : getModule r n = some m) (hU : m._state = .Unprocessed) :
    EvolvesBy P r (setState r n .Waiting) := by
  refine EvolvesBy.of_calls [] (setState_static _ _ _) rfl ?_ ?_ (by simp) (by simp) (by simp)
    (by simp) ?_
  · intro k mk hk hne
    have hkn : k ≠ n := by
      rintro rfl
      rw [hm] at hk
      cases hk
      exact hne hU
    simp [hkn, hk]
  · intro k mk hk hkU
    have hkn : k ≠ n := by
      rintro rfl
      simp only [getModule_setState, if_true, hm, Option.map_some', Option.some.injEq] at hk
      subst hk
      simp at hkU
    simpa [hkn] using hk
  · intro k mk mk' hk hkU hk' hkt
    exfalso
    by_cases hkn : k = n
    · subst hkn
      simp only [getModule_setState, if_true, hk, Option.map_some', Option.some.injEq] at hk'
      subst hk'
      exact terminal_ne_waiting hkt rfl
    · simp only [getModule_setState, if_neg hkn, hk, Option.some.injEq] at hk'
      subst hk'
      exact terminal_ne_unprocessed hkt hkU

/-- The reset of source line 146: once the walk is over, the module is again
the record it was before line 142 marked it `Waiting`. -/
theorem evolves_bracket {r r2 : Registry} {n : String} {m : Module}
    (hm : getModule r n = some m) (hU : m._state = .Unprocessed)
    (h : EvolvesBy P (setState r n .Waiting) r2) :
    EvolvesBy P r (setState r2 n .Unprocessed) ∧
      getModule r2 n = some { m with _state := .Waiting } ∧
      getModule (setState r2 n .Unprocessed) n = some m := by
  have h1 : getModule (setState r n .Waiting) n = some { m with _state := .Waiting } := by
    simp [hm]
  have h2 : getModule r2 n = some { m with _state := .Waiting } :=
    h.settled _ _ h1 (by simp)
  have h3 : getModule (setState r2 n .Unprocessed) n = some m := by
    simp only [getModule_setState, if_true, h2, Option.map_some']
    exact congrArg some (with_unprocessed hU)
  refine ⟨?_, h2, h3⟩
  have hcalls : (setState r2 n .Unprocessed).calls =
      r.calls ++ newCalls (setState r n .Waiting) r2 := by
    simpa using h.calls_eq
  refine EvolvesBy.of_calls (newCalls (setState r n .Waiting) r2)
    ((setState_static _ _ _).trans (h.frame.trans (setState_static _ _ _))) ?_ ?_ ?_ hcalls
    h.nodup ?_ ?_ ?_
  · simpa using h.reqs
  · intro k mk hk hne
    have hkn : k ≠ n := by
      rintro rfl
      rw [hm] at hk
      cases hk
      exact hne hU
    have := h.settled k mk (by simp [hkn, hk]) hne
    simp [hkn, this]
  · intro k mk hk hkU
    by_cases hkn : k = n
    · subst hkn
      rw [h3] at hk
      cases hk
      exact hm
    · simp only [getModule_setState, if_neg hkn] at hk
      have := h.untouched k mk hk hkU
      simpa [hkn] using this
  · intro c hc
    obtain ⟨x, hx, hxU, hy, hP⟩ := h.fresh c hc
    have hcn : c.name ≠ n := by
      intro hcn
      rw [hcn, h1] at hx
      cases hx
      simp at hxU
    simp only [getModule_setState, if_neg hcn] at hx ⊢
    exact ⟨x, hx, hxU, hy, hP⟩
  · intro c hc k i hk hi
    have hv := h.snapshot c hc k i hk hi
    have hkn : k ≠ n := by
      rintro rfl
      simp only [view, h2, Option.map_some', Option.some.injEq] at hv
      rw [← hv] at hi
      exact terminal_ne_waiting hi rfl
    simpa [view, hkn] using hv
  · intro k mk mk' hk hkU hk' hkt
    have hkn : k ≠ n := by
      rintro rfl
      rw [h3] at hk'
      cases hk'
      exact terminal_ne_unprocessed hkt hU
    simp only [getModule_setState, if_neg hkn] at hk'
    exact h.complete k mk mk' (by simp [hkn, hk]) hkU hk' hkt

/-- What a normal return of the second half of `processModule` tells. -/
theorem afterRequirements_normal {r : Registry} {name : String} {m x : Module}
    {res : Completion (List Module) × Registry} {r' : Registry}
    (hm : getModule r name = some m) (hU : m._state = .Unprocessed)
    (hev : EvolvesBy P (setState r name .Waiting) res.2)
    (hP : ∀ ms r2, res = (.normal ms, r2) →
      P m ⟨name, ms.map (fun a => JsValue.record a.info), view (setState r2 name .Unprocessed)⟩)
    (h : afterRequirements name m res = (.normal x, r')) :
    ∃ ms r2, res = (.normal ms, r2) ∧
      getModule (setState r2 name .Unprocessed) name = some m ∧
      x = finished m (m._initializer (view (setState r2 name .Unprocessed)) m.info
        (ms.map (fun a => JsValue.record a.info))) ∧
      r'.calls = r2.calls ++ [⟨name, ms.map (fun a => JsValue.record a.info),
        view (setState r2 name .Unprocessed)⟩] ∧
      (∀ k, getModule r' k = if k = name then some x else getModule r2 k) ∧
      EvolvesBy P r r' := by
  obtain ⟨c, r2⟩ := res
  cases c with
  | normal ms =>
    obtain ⟨hev3, _, h3⟩ := evolves_bracket hm hU hev
    obtain ⟨r4, he, hcalls, hget, hframe, hreqs, _⟩ :=
      initializeModule_unprocessed h3 hU (ms.map (fun a => JsValue.record a.info))
    simp only [afterRequirements, h3, he, Prod.mk.injEq, Completion.normal.injEq] at h
    obtain ⟨hx, rfl⟩ := h
    have hx' : x = finished m (m._initializer (view (setState r2 name .Unprocessed)) m.info
        (ms.map (fun a => JsValue.record a.info))) := by
      rw [← hx, hget, if_pos rfl]
      rfl
    refine ⟨ms, r2, rfl, h3, hx', by simpa using hcalls, ?_, ?_⟩
    · intro k
      rw [hget]
      by_cases hk : k = name
      · simp [hk, hx']
      · simp [hk]
    · exact hev3.trans (evolves_finish h3 hU hframe hreqs hcalls rfl rfl hget (hP ms r2 rfl))
  | abrupt e => simp [afterRequirements] at h
  | diverge => simp [afterRequirements] at h

/-- After a walk that returned, the second half of `processModule` returns. -/
theorem afterRequirements_returns {r r2 : Registry} {name : String} {m : Module}
    (ms : List Module) (hm : getModule r name = some m) (hU : m._state = .Unprocessed)
    (hev : EvolvesBy P (setState r name .Waiting) r2) :
    ∃ x r', afterRequirements name m (.normal ms, r2) = (.normal x, r') := by
  obtain ⟨_, _, h3⟩ := evolves_bracket hm hU hev
  obtain ⟨r4, he, _⟩ :=
    initializeModule_unprocessed h3 hU (ms.map (fun a => JsValue.record a.info))
  refine ⟨(getModule r4 name).getD m, r4, ?_⟩
  simp only [afterRequirements, h3, he]

theorem afterRequirements_evolves {r : Registry} {name : String} {m : Module}
    {res : Completion (List Module) × Registry}
    (hm : getModule r name = some m) (hU : m._state = .Unprocessed)
    (hev : EvolvesBy P (setState r name .Waiting) res.2)
    (hP : ∀ ms r2, res = (.normal ms, r2) →
      P m ⟨name, ms.map (fun a => JsValue.record a.info), view (setState r2 name .Unprocessed)⟩) :
    EvolvesBy P r (afterRequirements name m res).2 := by
  obtain ⟨c, r2⟩ := res
  cases c with
  | normal ms =>
    obtain ⟨x, r', hres⟩ := afterRequirements_returns ms hm hU hev
    obtain ⟨_, _, _, _, _, _, _, h⟩ := afterRequirements_normal hm hU hev hP hres
    rw [hres]
    exact h
  | abrupt e => exact (evolves_setWaiting hm hU).trans hev
  | diverge => exact (evolves_setWaiting hm hU).trans hev

/-! ## The resolver -/

/-- The resolver, for any property `P` that holds of a call made once every
stored requirement has been resolved to a handled record. -/
theorem processModule_spec
    (hP : ∀ (r3 : Registry) (m : Module) (ms : List Module), getModule r3 m._name = some m →
      List.Forall₂ (fun req x => getModule r3 req = some x ∧ terminal x._state)
        m._requirements ms →
      P m ⟨m._name, ms.map (fun a => JsValue.record a.info), view r3⟩)
    (fuel : Nat) (r : Registry) (name : String) (path : List String) :
    EvolvesBy P r (processModule fuel r name path).2 ∧
      ∀ x r', processModule fuel r name path = (.normal x, r') →
        getModule r' name = some x ∧ terminal x._state ∧ NoNewWaiting r r' := by
  induction fuel generalizing r name path with
  | zero => exact ⟨EvolvesBy.refl r, fun x r' h => by simp [processModule] at h⟩
  | succ fuel ih =>
    cases hm : getModule r name with
    | none =>
      rw [processModule_none hm]
      exact ⟨EvolvesBy.refl r, fun x r' h => by simp at h⟩
    | some m =>
      have hterm : terminal m._state →
          EvolvesBy P r (processModule (fuel + 1) r name path).2 ∧
          ∀ x r', processModule (fuel + 1) r name path = (.normal x, r') →
            getModule r' name = some x ∧ terminal x._state ∧ NoNewWaiting r r' := by
        intro ht
        rw [processModule_terminal hm ht]
        refine ⟨EvolvesBy.refl r, fun x r' h => ?_⟩
        simp only [Prod.mk.injEq, Completion.normal.injEq] at h
        obtain ⟨rfl, rfl⟩ := h
        exact ⟨hm, ht, NoNewWaiting.same r⟩
      cases hs : m._state with
      | Unprocessed =>
        rw [processModule_unprocessed hm hs]
        have hn : m._name = name := getModule_name hm
        have hev := mapRequirements_evolves
          (fun r1 req => (ih r1 req (path ++ [name])).1) m._requirements
          (setState r name .Waiting)
        have hnorm : ∀ ms r2, mapRequirements
            (fun r1 req => processModule fuel r1 req (path ++ [name])) m._requirements
            (setState r name .Waiting) = (.normal ms, r2) →
            List.Forall₂ (fun req x => getModule r2 req = some x ∧ terminal x._state)
              m._requirements ms ∧ NoNewWaiting (setState r name .Waiting) r2 :=
          fun ms r2 hres => mapRequirements_normal
            (fun r1 req => (ih r1 req (path ++ [name])).1)
            (fun r1 req y r1' hy => (ih r1 req (path ++ [name])).2 y r1' hy) hres
        have hP' : ∀ ms r2, mapRequirements
            (fun r1 req => processModule fuel r1 req (path ++ [name])) m._requirements
            (setState r name .Waiting) = (.normal ms, r2) →
            P m ⟨name, ms.map (fun a => JsValue.record a.info),
              view (setState r2 name .Unprocessed)⟩ := by
          intro ms r2 hres
          have hev2 : EvolvesBy P (setState r name .Waiting) r2 := by
            have := hev
            rwa [hres] at this
          obtain ⟨_, hw2, h3⟩ := evolves_bracket hm hs hev2
          have := hP (setState r2 name .Unprocessed) m ms (by rw [hn]; exact h3) ?_
          · rwa [hn] at this
          · refine List.Forall₂.imp ?_ (hnorm ms r2 hres).1
            intro req y ⟨hy, hyt⟩
            have hreq : req ≠ name := by
              rintro rfl
              rw [hw2] at hy
              cases hy
              exact terminal_ne_waiting hyt rfl
            exact ⟨by simp [hreq, hy], hyt⟩
        refine ⟨afterRequirements_evolves hm hs hev hP', fun x r' h => ?_⟩
        obtain ⟨ms, r2, hres, _, hx, _, hget, _⟩ := afterRequirements_normal hm hs hev hP' h
        have ht : terminal x._state := by rw [hx]; exact finished_terminal _ _
        obtain ⟨_, hw⟩ := hnorm ms r2 hres
        refine ⟨by rw [hget, if_pos rfl], ht, ?_⟩
        intro k y hk hkW
        have hkn : k ≠ name := by
          rintro rfl
          rw [hget, if_pos rfl] at hk
          cases hk
          exact terminal_ne_waiting ht hkW
        rw [hget, if_neg hkn] at hk
        have := hw k y hk hkW
        simpa [hkn] using this
      | Waiting =>
        rw [processModule_waiting hm hs]
        exact ⟨EvolvesBy.refl r, fun x r' h => by simp at h⟩
      | Processed => exact hterm (Or.inl hs)
      | Error => exact hterm (Or.inr hs)

end

theorem orderedCall_of_resolved (r3 : Registry) (m : Module) (ms : List Module)
    (_ : getModule r3 m._name = some m)
    (h : List.Forall₂ (fun req x => getModule r3 req = some x ∧ terminal x._state)
      m._requirements ms) :
    OrderedCall m ⟨m._name, ms.map (fun a => JsValue.record a.info), view r3⟩ := by
  unfold OrderedCall Ordered
  rw [List.forall₂_map_right_iff]
  refine List.Forall₂.imp ?_ h
  intro req y ⟨hy, hyt⟩
  exact ⟨y.info, by simp [view, hy], rfl, hyt⟩

theorem processModule_resolves (fuel : Nat) (r : Registry) (name : String) (path : List String) :
    Resolves r (processModule fuel r name path).2 :=
  (processModule_spec orderedCall_of_resolved fuel r name path).1

theorem Resolves.evolves {r r' : Registry} (h : Resolves r r') : Evolves r r' :=
  EvolvesBy.mono (fun _ _ _ => trivial) h

theorem processModule_evolves (fuel : Nat) (r : Registry) (name : String) (path : List String) :
    Evolves r (processModule fuel r name path).2 :=
  (processModule_resolves fuel r name path).evolves

theorem processModule_normal {fuel : Nat} {r r' : Registry} {name : String} {path : List String}
    {x : Module} (h : processModule fuel r name path = (.normal x, r')) :
    getModule r' name = some x ∧ terminal x._state ∧ NoNewWaiting r r' :=
  (processModule_spec orderedCall_of_resolved fuel r name path).2 x r' h

/-! ## Progress on a well-formed registry -/

theorem isUnprocessed_iff {r : Registry} {n : String} :
    isUnprocessed r n = true ↔ ∃ m, getModule r n = some m ∧ m._state = .Unprocessed := by
  unfold isUnprocessed
  cases getModule r n with
  | none => simp
  | some m => simp

theorem countP_lt_of {p q : String → Bool} {l : List String} (h : ∀ x ∈ l, p x = true → q x = true)
    {a : String} (ha : a ∈ l) (hq : q a = true) (hp : p a = false) :
    l.countP p < l.countP q := by
  induction l with
  | nil => simp at ha
  | cons x xs ih =>
    have hxs : ∀ y ∈ xs, p y = true → q y = true := fun y hy => h y (List.mem_cons_of_mem _ hy)
    have hle : xs.countP p ≤ xs.countP q := List.countP_mono_left hxs
    simp only [List.countP_cons]
    rcases List.mem_cons.1 ha with rfl | ha'
    · simp only [hq, hp, if_true]
      simp only [Bool.false_eq_true, if_false]
      omega
    · have := ih hxs ha'
      have hx := h x (List.mem_cons_self _ _)
      by_cases hpx : p x = true
      · simp only [hpx, hx hpx, if_true]
        omega
      · by_cases hqx : q x = true
        · simp only [hpx, hqx, if_true, if_false, Bool.false_eq_true]
          omega
        · simp only [hpx, hqx, if_false, Bool.false_eq_true]
          omega

theorem EvolvesBy.isSome_iff {P : Module → Invocation → Prop} {r r' : Registry}
    (h : EvolvesBy P r r') (n : String) : (getModule r' n).isSome ↔ (getModule r n).isSome := by
  have := h.none_iff n
  rw [← not_iff_not]
  simpa using this

theorem EvolvesBy.count_le {P : Module → Invocation → Prop} {r r' : Registry}
    (h : EvolvesBy P r r') : unprocessedCount r' ≤ unprocessedCount r := by
  unfold unprocessedCount
  rw [h.names]
  refine List.countP_mono_left ?_
  intro n _ hn
  obtain ⟨m, hm, hU⟩ := isUnprocessed_iff.1 hn
  exact isUnprocessed_iff.2 ⟨m, h.untouched n m hm hU, hU⟩

theorem EvolvesBy.closed {P : Module → Invocation → Prop} {r r' : Registry}
    (h : EvolvesBy P r r') (hc : Closed r) : Closed r' := by
  intro n m' hm' req hreq
  obtain ⟨m, hm, hs⟩ := h.backward hm'
  rw [h.isSome_iff]
  exact hc n m hm req (by rw [static_requirements hs]; exact hreq)

theorem EvolvesBy.acyclic {P : Module → Invocation → Prop} {r r' : Registry}
    (h : EvolvesBy P r r') (hc : Acyclic r) : Acyclic r' := by
  unfold Acyclic
  rw [h.dep_eq]
  exact hc

theorem count_setWaiting_lt {r : Registry} {n : String} {m : Module}
    (hm : getModule r n = some m) (hU : m._state = .Unprocessed) :
    unprocessedCount (setState r n .Waiting) < unprocessedCount r := by
  unfold unprocessedCount
  rw [static_names (setState_static r n .Waiting)]
  have hn : n ∈ r.moduleMap.map (·._name) := getModule_isSome_iff.1 (by simp [hm])
  refine countP_lt_of ?_ hn (isUnprocessed_iff.2 ⟨m, hm, hU⟩) ?_
  · intro k _ hk
    obtain ⟨x, hx, hxU⟩ := isUnprocessed_iff.1 hk
    exact isUnprocessed_iff.2
      ⟨x, (evolves_setWaiting (P := fun _ _ => True) hm hU).untouched k x hx hxU, hxU⟩
  · simp [isUnprocessed, hm]

theorem walk_progress {fuel : Nat} {path : List String}
    (ih : ∀ r name, Closed r → Acyclic r → (getModule r name).isSome →
      (∀ w m, getModule r w = some m → m._state = .Waiting → Relation.TransGen (Dep r) w name) →
      unprocessedCount r < fuel → ∃ x r', processModule fuel r name path = (.normal x, r'))
    (reqs : List String) (r : Registry) (hc : Closed r) (ha : Acyclic r)
    (hreg : ∀ req ∈ reqs, (getModule r req).isSome)
    (hanc : ∀ req ∈ reqs, ∀ w m, getModule r w = some m → m._state = .Waiting →
      Relation.TransGen (Dep r) w req)
    (hfuel : unprocessedCount r < fuel) :
    ∃ ms r', mapRequirements (fun r1 req => processModule fuel r1 req path) reqs r =
      (.normal ms, r') := by
  induction reqs generalizing r with
  | nil => exact ⟨[], r, rfl⟩
  | cons req rest ihr =>
    obtain ⟨x, r1, h1⟩ := ih r req hc ha (hreg req (List.mem_cons_self _ _))
      (hanc req (List.mem_cons_self _ _)) hfuel
    have hev : Evolves r r1 := by
      have := processModule_evolves fuel r req path
      rwa [h1] at this
    have hw : NoNewWaiting r r1 := (processModule_normal h1).2.2
    obtain ⟨ms, r2, h2⟩ := ihr r1 (hev.closed hc) (hev.acyclic ha)
      (fun q hq => (hev.isSome_iff q).2 (hreg q (List.mem_cons_of_mem _ hq)))
      (fun q hq w m hwm hwW => by
        rw [hev.dep_eq]
        exact hanc q (List.mem_cons_of_mem _ hq) w m (hw w m hwm hwW) hwW)
      (lt_of_le_of_lt hev.count_le hfuel)
    exact ⟨x :: ms, r2, by simp only [mapRequirements, h1, h2]⟩

/-- On a registry whose stored requirements are all registered and free of
cycles, resolving a registered name returns, provided the modules found
`Waiting` all depend on it and the recursion bound exceeds the number of
`Unprocessed` modules. -/
theorem processModule_progress (fuel : Nat) (r : Registry) (name : String) (path : List String)
    (hc : Closed r) (ha : Acyclic r) (hreg : (getModule r name).isSome)
    (hanc : ∀ w m, getModule r w = some m → m._state = .Waiting →
      Relation.TransGen (Dep r) w name)
    (hfuel : unprocessedCount r < fuel) :
    ∃ x r', processModule fuel r name path = (.normal x, r') := by
  induction fuel generalizing r name path with
  | zero => omega
  | succ fuel ih =>
    cases hm : getModule r name with
    | none => simp [hm] at hreg
    | some m =>
      cases hs : m._state with
      | Unprocessed =>
        rw [processModule_unprocessed hm hs]
        have hev1 : Evolves r (setState r name .Waiting) := evolves_setWaiting hm hs
        have hdep : ∀ req ∈ m._requirements, Dep (setState r name .Waiting) name req := by
          intro req hreq
          rw [hev1.dep_eq]
          exact ⟨m, hm, hreq⟩
        obtain ⟨ms, r2, h2⟩ := @walk_progress fuel (path ++ [name])
          (fun r1 n1 h1 h2 h3 h4 h5 => ih r1 n1 (path ++ [name]) h1 h2 h3 h4 h5)
          m._requirements (setState r name .Waiting) (hev1.closed hc) (hev1.acyclic ha)
          (fun req hreq => (hev1.isSome_iff req).2 (hc name m hm req hreq))
          (fun req hreq w x hwx hwW => by
            by_cases hwn : w = name
            · subst hwn
              exact Relation.TransGen.single (hdep req hreq)
            · have hwx' : getModule r w = some x := by simpa [hwn] using hwx
              have := hanc w x hwx' hwW
              rw [← hev1.dep_eq] at this
              exact Relation.TransGen.tail this (hdep req hreq))
          (by have := count_setWaiting_lt hm hs; omega)
        rw [h2]
        have hev2 : Evolves (setState r name .Waiting) r2 := by
          have := mapRequirements_evolves
            (fun r1 req => processModule_evolves fuel r1 req (path ++ [name])) m._requirements
            (setState r name .Waiting)
          rwa [h2] at this
        exact afterRequirements_returns ms hm hs hev2
      | Waiting => exact absurd (hanc name m hm hs) (ha name)
      | Processed => exact ⟨m, r, processModule_terminal hm (Or.inl hs) _ _⟩
      | Error => exact ⟨m, r, processModule_terminal hm (Or.inr hs) _ _⟩

/-! ## The bulk run -/

theorem processEntries_resolves (fuel : Nat) (names : List String) (r : Registry) :
    Resolves r (processEntries fuel names r).2 := by
  induction names generalizing r with
  | nil => exact EvolvesBy.refl r
  | cons n rest ih =>
    have h1 := processModule_resolves fuel r n []
    cases hc : processModule fuel r n [] with
    | mk c r1 =>
      rw [hc] at h1
      cases c with
      | normal x =>
        simp only [processEntries, hc]
        exact EvolvesBy.trans h1 (ih r1)
      | abrupt e => simpa only [processEntries, hc] using h1
      | diverge => simpa only [processEntries, hc] using h1

theorem evolvesBy_flag {P : Module → Invocation → Prop} {r r' : Registry} (b : Bool)
    (h : EvolvesBy P r r') : EvolvesBy P r { r' with initialProcessCompleted := b } :=
  ⟨h.frame, h.reqs, h.settled, h.untouched, h.calls_eq, h.nodup, h.fresh, h.snapshot,
    h.complete⟩

theorem processModules_resolves (fuel : Nat) (r : Registry) :
    Resolves r (processModules fuel r).2 := by
  have h := processEntries_resolves fuel (r.moduleMap.map (·._name)) r
  unfold processModules
  cases hc : processEntries fuel (r.moduleMap.map (·._name)) r with
  | mk c r1 =>
    rw [hc] at h
    cases c with
    | normal x => exact evolvesBy_flag true h
    | abrupt e => exact h
    | diverge => exact h

theorem unprocessedCount_le (r : Registry) : unprocessedCount r ≤ r.moduleMap.length := by
  unfold unprocessedCount
  have := List.countP_le_length (isUnprocessed r) (l := r.moduleMap.map (·._name))
  simpa using this

theorem mem_of_lookup {l : List Module} {n : String} {m : Module} (h : lookup l n = some m) :
    m ∈ l := by
  induction l with
  | nil => simp [lookup] at h
  | cons x xs ih =>
    simp only [lookup] at h
    split at h
    · cases h; exact List.mem_cons_self _ _
    · exact List.mem_cons_of_mem _ (ih h)

theorem closed_of_list {r : Registry}
    (h : ∀ m ∈ r.moduleMap, ∀ req ∈ m._requirements, req ∈ r.moduleMap.map (·._name)) :
    Closed r := by
  intro n m hm req hreq
  exact getModule_isSome_iff.2 (h m (mem_of_lookup hm) req hreq)

theorem acyclic_of_rank {r : Registry} (rank : String → Nat)
    (h : ∀ m ∈ r.moduleMap, ∀ req ∈ m._requirements, rank req < rank m._name) :
    Acyclic r := by
  have hstep : ∀ a b, Dep r a b → rank b < rank a := by
    rintro a b ⟨m, hm, hb⟩
    have := h m (mem_of_lookup hm) b hb
    rwa [getModule_name hm] at this
  have htrans : ∀ a b, Relation.TransGen (Dep r) a b → rank b < rank a := by
    intro a b hab
    induction hab with
    | single h1 => exact hstep _ _ h1
    | tail _ h2 ih => exact lt_trans (hstep _ _ h2) ih
  intro n hn
  exact lt_irrefl _ (htrans n n hn)

theorem exists_call_of_name {l : List Invocation} {n : String} (h : n ∈ l.map (·.name)) :
    ∃ c ∈ l, c.name = n := by
  obtain ⟨c, hc, hn⟩ := List.mem_map.1 h
  exact ⟨c, hc, hn⟩

theorem Ordered.mem {reqs : List String} {c : Invocation} (h : Ordered reqs c) :
    ∀ req ∈ reqs, ∃ i, c.getModule req = some i ∧ terminal i._state := by
  unfold Ordered at h
  generalize c.args = args at h
  induction h with
  | nil => intro req hreq; simp at hreq
  | cons h _ ih =>
    intro req hreq
    rcases List.mem_cons.1 hreq with rfl | h'
    · obtain ⟨i, hi, _, ht⟩ := h
      exact ⟨i, hi, ht⟩
    · exact ih req h'

theorem CalledOnce.preserved {r r' : Registry} (h : CalledOnce r) (hev : Evolves r r') :
    CalledOnce r' := by
  obtain ⟨hnd, hall⟩ := h
  constructor
  · rw [hev.calls_eq, List.map_append, List.nodup_append]
    refine ⟨hnd, hev.nodup, ?_⟩
    intro x hx1 hx2
    obtain ⟨c1, hc1, rfl⟩ := List.mem_map.1 hx1
    obtain ⟨c2, hc2, hname⟩ := List.mem_map.1 hx2
    obtain ⟨m, hm, ht⟩ := hall c1 hc1
    obtain ⟨m2, hm2, hU, _⟩ := hev.fresh c2 hc2
    have hname' : c2.name = c1.name := hname
    rw [hname', hm] at hm2
    cases hm2
    exact terminal_ne_unprocessed ht hU
  · intro c hc
    rw [hev.calls_eq] at hc
    rcases List.mem_append.1 hc with hc | hc
    · obtain ⟨m, hm, ht⟩ := hall c hc
      exact ⟨m, hev.settled _ _ hm (terminal_ne_unprocessed ht), ht⟩
    · obtain ⟨m, _, _, hm', _⟩ := hev.fresh c hc
      exact ⟨_, hm', finished_terminal _ _⟩

theorem processModules_evolves (fuel : Nat) (r : Registry) :
    Evolves r (processModules fuel r).2 :=
  (processModules_resolves fuel r).evolves

theorem define_calledOnce (fuel : Nat) (r : Registry) (name : String) (reqs : List String)
    (fn : ModuleInitializer) (h : CalledOnce r) : CalledOnce (define fuel r name reqs fn).2 := by
  unfold define
  by_cases hdup : (getModule r name).isSome
  · simpa only [hdup, if_true] using h
  · simp only [hdup, Bool.false_eq_true, if_false]
    have hnone : getModule r name = none := by simpa using hdup
    have h2 : CalledOnce
        ({ r with
            moduleMap := r.moduleMap ++ [⟨name, .Unprocessed, reqs.drop 2, fn, none⟩],
            requirements := (reqs.drop 2).foldl setAdd r.requirements } : Registry) := by
      refine ⟨h.1, ?_⟩
      intro c hc
      obtain ⟨m, hm, ht⟩ := h.2 c hc
      refine ⟨m, ?_, ht⟩
      unfold getModule at hm ⊢
      simp only [lookup_append, hm, Option.orElse]
    split
    · have hev := processModules_evolves fuel
        ({ r with
            moduleMap := r.moduleMap ++ [⟨name, .Unprocessed, reqs.drop 2, fn, none⟩],
            requirements := (reqs.drop 2).foldl setAdd r.requirements } : Registry)
      have h3 := h2.preserved hev
      split <;> simp_all
    · exact h2

theorem perform_calledOnce (fuel : Nat) (r : Registry) (call : Call) (h : CalledOnce r) :
    CalledOnce (perform fuel r call) := by
  cases call with
  | define name reqs fn => exact define_calledOnce fuel r name reqs fn h
  | processModule name => exact h.preserved (processModule_evolves fuel r name [])
  | processModules => exact h.preserved (processModules_evolves fuel r)
  | initializeModuleByName name => exact h.preserved (initializeModule_evolves r name [])

theorem run_calledOnce (fuel : Nat) (calls : List Call) (r : Registry) (h : CalledOnce r) :
    CalledOnce (run fuel calls r) := by
  induction calls generalizing r with
  | nil => exact h
  | cons call rest ih => exact ih _ (perform_calledOnce fuel r call h)

/-- A resolve of `name` leaves it unregistered or not `Unprocessed`. -/
theorem processModule_leaves (fuel : Nat) (r : Registry) (name : String) (path : List String) :
    getModule (processModule (fuel + 1) r name path).2 name = none ∨
      ∃ m, getModule (processModule (fuel + 1) r name path).2 name = some m ∧
        m._state ≠ .Unprocessed := by
  cases hm : getModule r name with
  | none => rw [processModule_none hm]; exact Or.inl hm
  | some m =>
    right
    cases hs : m._state with
    | Unprocessed =>
      rw [processModule_unprocessed hm hs]
      have hev := mapRequirements_evolves
        (fun r1 req => processModule_evolves fuel r1 req (path ++ [name])) m._requirements
        (setState r name .Waiting)
      have hW := hev.settled name { m with _state := .Waiting } (by simp [hm]) (by simp)
      cases hres : mapRequirements
          (fun r1 req => processModule fuel r1 req (path ++ [name])) m._requirements
          (setState r name .Waiting) with
      | mk c r2 =>
        rw [hres] at hev hW
        cases c with
        | normal ms =>
          obtain ⟨x, r', hx⟩ := afterRequirements_returns ms hm hs hev
          obtain ⟨_, _, _, _, hfin, _, hget, _⟩ :=
            afterRequirements_normal hm hs (by exact hev) (fun _ _ _ => trivial) hx
          rw [hx]
          refine ⟨x, by rw [hget, if_pos rfl], ?_⟩
          rw [hfin]
          exact terminal_ne_unprocessed (finished_terminal _ _)
        | abrupt e => exact ⟨_, hW, by simp⟩
        | diverge => exact ⟨_, hW, by simp⟩
    | Waiting => rw [processModule_waiting hm hs]; exact ⟨m, hm, by simp [hs]⟩
    | Processed => rw [processModule_terminal hm (Or.inl hs)]; exact ⟨m, hm, by simp [hs]⟩
    | Error => rw [processModule_terminal hm (Or.inr hs)]; exact ⟨m, hm, by simp [hs]⟩

/-- A resolve of a name that is unregistered or not `Unprocessed` changes
nothing. -/
theorem processModule_noop (fuel : Nat) (r : Registry) (name : String) (path : List String)
    (h : getModule r name = none ∨ ∃ m, getModule r name = some m ∧ m._state ≠ .Unprocessed) :
    (processModule (fuel + 1) r name path).2 = r := by
  rcases h with h | ⟨m, hm, hne⟩
  · rw [processModule_none h]
  · cases hs : m._state with
    | Unprocessed => exact absurd hs hne
    | Waiting => rw [processModule_waiting hm hs]
    | Processed => rw [processModule_terminal hm (Or.inl hs)]
    | Error => rw [processModule_terminal hm (Or.inr hs)]

/-- C3. At most once: after any finite sequence of top-level calls of
`define`, `processModule`, `processModules` and `initializeModuleByName` from
the freshly loaded state, no module's initializer has been called twice;
`processModule` on a module already `Processed` or `Error` returns that module
and leaves the registry, call log included, as it was; and a second resolve of
the same name leaves the registry as the first one left it. -/
theorem initializer_at_most_once (fuel : Nat) (calls : List Call) :
    ((run fuel calls Registry.empty).calls.map (·.name)).Nodup ∧
      (∀ (r : Registry) (name : String) (m : Module) (path : List String) (fuel' : Nat),
        getModule r name = some m → terminal m._state →
        processModule (fuel' + 1) r name path = (.normal m, r)) ∧
      ∀ (r : Registry) (name : String) (path : List String) (fuel' : Nat),
        (processModule (fuel' + 1) (processModule (fuel' + 1) r name path).2 name path).2 =
          (processModule (fuel' + 1) r name path).2 :=
  ⟨(run_calledOnce fuel calls Registry.empty ⟨by simp [Registry.empty], by
      simp [Registry.empty]⟩).1,
    fun _ _ _ path fuel' hm ht => processModule_terminal hm ht fuel' path,
    fun r name path fuel' =>
      processModule_noop fuel' _ name path (processModule_leaves fuel' r name path)⟩

/-- C3 on a session that resolves `b` twice and re-runs the bulk run: each of
`a`, `b`, `c` is called once; and resolving the handled module `A` of the
processed diamond changes nothing. -/
theorem initializer_at_most_once_witness :
    ((run 5 session Registry.empty).calls.map (·.name)).Nodup ∧
      (run 5 session Registry.empty).calls.map (·.name) = ["a", "b", "c"] ∧
      getModule (processModules 5 diamond).2 "A" =
        some ⟨"A", .Processed, [], constInit (.number 1), none⟩ ∧
      terminal ModuleState.Processed ∧
      processModule 1 (processModules 5 diamond).2 "A" ["D", "B"] =
        (.normal ⟨"A", .Processed, [], constInit (.number 1), none⟩,
          (processModules 5 diamond).2) :=
  ⟨(initializer_at_most_once 5 session).1, by decide, rfl, by decide,
    (initializer_at_most_once 0 []).2.1 (processModules 5 diamond).2 "A" _ ["D", "B"] 0 rfl
      (by decide)⟩

/-- C4. Duplicate registration is rejected atomically: `define` on a
registered name throws `Module "<name>" cannot be redefined` and leaves the
whole registry (module map, requirement-name set, bulk-run flag, call log) as
it was. -/
theorem define_duplicate (fuel : Nat) (r : Registry) (name : String) (reqs : List String)
    (fn : ModuleInitializer) (m : Module) (h : getModule r name = some m) :
    define fuel r name reqs fn =
      (.abrupt (.error ("Module " ++ quoted name ++ " cannot be redefined")), r) := by
  simp [define, h]

/-- C4 on the diamond: a second `define` of `A`. -/
theorem define_duplicate_witness :
    getModule diamond "A" = some ⟨"A", .Unprocessed, [], constInit (.number 1), none⟩ ∧
      define 5 diamond "A" ["require", "exports", "D"] (throwInit "again") =
        (.abrupt (.error "Module \"A\" cannot be redefined"), diamond) :=
  ⟨rfl, define_duplicate 5 diamond "A" ["require", "exports", "D"] (throwInit "again") _ rfl⟩

/-! ### Cycles -/

theorem markWaiting_calls (r : Registry) (names : List String) :
    (markWaiting r names).calls = r.calls := by
  induction names generalizing r with
  | nil => rfl
  | cons n rest ih =>
    have h := ih (setState r n .Waiting)
    exact h

theorem mapRequirements_abrupt_head {f : Registry → String → Completion Module × Registry}
    {r r1 : Registry} {req : String} {rest : List String} {e : JsError}
    (h : f r req = (.abrupt e, r1)) : mapRequirements f (req :: rest) r = (.abrupt e, r1) := by
  simp only [mapRequirements, h]

theorem circular_aux (m0 : String) (suf : List String) :
    ∀ (pre : List String) (x : String) (r : Registry) (fuel : Nat),
      (pre ++ x :: suf).Nodup → (pre ++ x :: suf).head? = some m0 →
      (∀ z ∈ pre, ∃ m, getModule r z = some m ∧ m._state = .Waiting) →
      (∀ p ∈ (x :: suf).zip (suf ++ [m0]), Link r p.1 p.2) →
      suf.length + 1 < fuel →
      processModule fuel r x pre =
        (.abrupt (.error (circularMessage (pre ++ x :: suf) m0)), markWaiting r (x :: suf)) := by
  induction suf with
  | nil =>
    intro pre x r fuel hnd hhead hpre hlinks hfuel
    obtain ⟨k, rfl⟩ : ∃ k, fuel = k + 2 := ⟨fuel - 2, by simp at hfuel; omega⟩
    obtain ⟨mx, hmx', hxU, hxr'⟩ := hlinks (x, m0) (by simp)
    have hmx : getModule r x = some mx := hmx'
    have hxr : mx._requirements.head? = some m0 := hxr'
    obtain ⟨rest', hreqs⟩ : ∃ rest', mx._requirements = m0 :: rest' := by
      cases hr : mx._requirements with
      | nil => rw [hr] at hxr; simp at hxr
      | cons a t =>
        rw [hr] at hxr
        simp only [List.head?_cons, Option.some.injEq] at hxr
        exact ⟨t, by rw [hxr]⟩
    have hw : ∃ m, getModule (setState r x .Waiting) m0 = some m ∧ m._state = .Waiting := by
      cases pre with
      | nil =>
        simp only [List.nil_append, List.head?_cons, Option.some.injEq] at hhead
        subst hhead
        exact ⟨{ mx with _state := .Waiting }, by simp [hmx], rfl⟩
      | cons z zs =>
        simp only [List.cons_append, List.head?_cons, Option.some.injEq] at hhead
        subst hhead
        obtain ⟨mz, hmz, hzW⟩ := hpre z (List.mem_cons_self _ _)
        have hzx : z ≠ x := by
          intro h
          rw [h] at hnd
          simp at hnd
        exact ⟨mz, by simp [hzx, hmz], hzW⟩
    obtain ⟨mw, hmw, hmwW⟩ := hw
    rw [processModule_unprocessed hmx hxU, hreqs,
      mapRequirements_abrupt_head (processModule_waiting hmw hmwW k (pre ++ [x]))]
    rfl
  | cons y t ih =>
    intro pre x r fuel hnd hhead hpre hlinks hfuel
    obtain ⟨k, rfl⟩ : ∃ k, fuel = k + 1 := ⟨fuel - 1, by omega⟩
    obtain ⟨mx, hmx', hxU, hxr'⟩ := hlinks (x, y) (by simp)
    have hmx : getModule r x = some mx := hmx'
    have hxr : mx._requirements.head? = some y := hxr'
    obtain ⟨rest', hreqs⟩ : ∃ rest', mx._requirements = y :: rest' := by
      cases hr : mx._requirements with
      | nil => rw [hr] at hxr; simp at hxr
      | cons a t =>
        rw [hr] at hxr
        simp only [List.head?_cons, Option.some.injEq] at hxr
        exact ⟨t, by rw [hxr]⟩
    have hnd' : ((pre ++ [x]) ++ y :: t).Nodup := by simpa using hnd
    have hx_notin : x ∉ y :: t := by
      have h1 := (List.nodup_append.1 hnd).2.1
      exact (List.nodup_cons.1 h1).1
    have hih := ih (pre ++ [x]) y (setState r x .Waiting) k hnd'
      (by
        cases pre with
        | nil => simpa using hhead
        | cons z zs => simpa using hhead)
      (by
        intro z hz
        rcases List.mem_append.1 hz with hz | hz
        · obtain ⟨mz, hmz, hzW⟩ := hpre z hz
          have hzx : z ≠ x := by
            intro h
            rw [h] at hz
            exact (List.nodup_append.1 hnd).2.2 hz (List.mem_cons_self _ _)
          exact ⟨mz, by simp [hzx, hmz], hzW⟩
        · simp only [List.mem_singleton] at hz
          rw [hz]
          exact ⟨{ mx with _state := .Waiting }, by simp [hmx], rfl⟩)
      (by
        intro p hp
        have hp1 : p.1 ∈ y :: t := (List.of_mem_zip (a := p.1) (b := p.2) hp).1
        have hpx : p.1 ≠ x := fun h => hx_notin (h ▸ hp1)
        obtain ⟨m, hm, hU, hr⟩ := hlinks p (by
          simp only [List.cons_append, List.zip_cons_cons, List.mem_cons]
          exact Or.inr hp)
        exact ⟨m, by simp [hpx, hm], hU, hr⟩)
      (by simp at hfuel; omega)
    rw [processModule_unprocessed hmx hxU, hreqs, mapRequirements_abrupt_head hih]
    simp [afterRequirements, markWaiting]

/-- C5. Cycle detection with the full chain: for distinct names
`m0, ..., m(n-1)`, all registered and `Unprocessed`, the first stored
requirement of each being the next one and that of the last being `m0`,
`processModule m0` with an empty visited path throws the error whose message
is `Circular dependency! Dependency chain: ` followed by the quoted names
`m0, ..., m(n-1), m0` joined by ` > `; it calls no initializer, and leaves the
modules of the chain `Waiting`. -/
theorem circular_dependency_chain (r : Registry) (m0 : String) (rest : List String)
    (fuel : Nat) (hnodup : (m0 :: rest).Nodup)
    (hlinks : ∀ p ∈ (m0 :: rest).zip ((m0 :: rest).rotate 1), Link r p.1 p.2)
    (hfuel : (m0 :: rest).length < fuel) :
    processModule fuel r m0 [] =
        (.abrupt (.error ("Circular dependency! Dependency chain: " ++
          " > ".intercalate (((m0 :: rest) ++ [m0]).map quoted))), markWaiting r (m0 :: rest)) ∧
      (processModule fuel r m0 []).2.calls = r.calls := by
  have hrot : (m0 :: rest).rotate 1 = rest ++ [m0] := by simp [List.rotate_cons_succ]
  rw [hrot] at hlinks
  have h := circular_aux m0 rest [] m0 r fuel hnodup rfl (by simp) hlinks
    (by simpa using hfuel)
  rw [h]
  exact ⟨rfl, markWaiting_calls r (m0 :: rest)⟩

/-- C5 on the cycle `A → B → C → A` resolved from `A`. -/
theorem circular_dependency_chain_witness :
    ["A", "B", "C"].Nodup ∧
      (∀ p ∈ ["A", "B", "C"].zip (["A", "B", "C"].rotate 1), Link cycle3 p.1 p.2) ∧
      (processModule 4 cycle3 "A" []).1.thrown = some (.error
        "Circular dependency! Dependency chain: \"A\" > \"B\" > \"C\" > \"A\"") ∧
      (processModule 4 cycle3 "A" []).2.calls = cycle3.calls := by
  have hl : ∀ p ∈ ["A", "B", "C"].zip (["A", "B", "C"].rotate 1), Link cycle3 p.1 p.2 := by
    intro p hp
    have hp' : p = ("A", "B") ∨ p = ("B", "C") ∨ p = ("C", "A") := by
      simpa [List.rotate_cons_succ] using hp
    rcases hp' with rfl | rfl | rfl
    · exact ⟨_, rfl, rfl, rfl⟩
    · exact ⟨_, rfl, rfl, rfl⟩
    · exact ⟨_, rfl, rfl, rfl⟩
  have h := circular_dependency_chain cycle3 "A" ["B", "C"] 4 (by decide) hl (by decide)
  refine ⟨by decide, hl, ?_, h.2⟩
  rw [h.1]
  decide

/-! ### Unregistered names -/

theorem mapRequirements_stops {f : Registry → String → Completion Module × Registry}
    {pre : List String} (post : List String) {u : String} {r r3 : Registry} {e : JsError}
    (hpre : (mapRequirements f pre r).1.isNormal = true)
    (hu : f (mapRequirements f pre r).2 u = (.abrupt e, r3)) :
    mapRequirements f (pre ++ u :: post) r = (.abrupt e, r3) := by
  induction pre generalizing r with
  | nil => exact mapRequirements_abrupt_head hu
  | cons q qs ih =>
    cases hq : f r q with
    | mk c r1 =>
      cases c with
      | normal x =>
        simp only [mapRequirements, hq] at hpre hu
        cases hqs : mapRequirements f qs r1 with
        | mk c2 r2 =>
          rw [hqs] at hpre hu
          cases c2 with
          | normal xs =>
            have h := ih (r := r1) (by rw [hqs]; rfl) (by rw [hqs]; exact hu)
            rw [List.cons_append]
            simp only [mapRequirements, hq, h]
          | abrupt e2 => simp [Completion.isNormal] at hpre
          | diverge => simp [Completion.isNormal] at hpre
      | abrupt e1 => simp [mapRequirements, hq, Completion.isNormal] at hpre
      | diverge => simp [mapRequirements, hq, Completion.isNormal] at hpre

/-- C6. Undefined module: `processModule` on a name that is not registered
throws `No "<name>" module defined` and changes nothing; and when the walk
over the stored requirements of an `Unprocessed` module reaches an
unregistered name `u`, the requirements before it having resolved normally,
the call throws that error naming `u`, and the module's own initializer has
not been called. -/
theorem undefined_module :
    (∀ (r : Registry) (name : String) (path : List String) (fuel : Nat),
      getModule r name = none →
      processModule (fuel + 1) r name path =
        (.abrupt (.error ("No " ++ quoted name ++ " module defined")), r)) ∧
    (∀ (r : Registry) (name : String) (path : List String) (fuel : Nat) (m : Module)
      (pre post : List String) (u : String),
      getModule r name = some m → m._state = .Unprocessed →
      m._requirements = pre ++ u :: post → getModule r u = none →
      (mapRequirements (fun r1 req => processModule (fuel + 1) r1 req (path ++ [name])) pre
        (setState r name .Waiting)).1.isNormal = true →
      processModule (fuel + 2) r name path =
        (.abrupt (.error ("No " ++ quoted u ++ " module defined")),
          (mapRequirements (fun r1 req => processModule (fuel + 1) r1 req (path ++ [name])) pre
            (setState r name .Waiting)).2) ∧
      name ∉ (newCalls r (processModule (fuel + 2) r name path).2).map (·.name)) := by
  refine ⟨fun r name path fuel h => processModule_none h fuel path, ?_⟩
  intro r name path fuel m pre post u hm hU hreqs hu hpre
  have hev1 : Evolves r (setState r name .Waiting) := evolves_setWaiting hm hU
  have hev2 := mapRequirements_evolves
    (fun r1 req => processModule_evolves (fuel + 1) r1 req (path ++ [name])) pre
    (setState r name .Waiting)
  have hu2 : getModule (mapRequirements
      (fun r1 req => processModule (fuel + 1) r1 req (path ++ [name])) pre
      (setState r name .Waiting)).2 u = none :=
    (hev2.none_iff u).2 ((hev1.none_iff u).2 hu)
  have hstop := mapRequirements_stops post hpre
    (processModule_none hu2 fuel (path ++ [name]))
  have hres : processModule (fuel + 2) r name path =
      (.abrupt (.error ("No " ++ quoted u ++ " module defined")),
        (mapRequirements (fun r1 req => processModule (fuel + 1) r1 req (path ++ [name])) pre
          (setState r name .Waiting)).2) := by
    rw [processModule_unprocessed hm hU, hreqs, hstop]
    rfl
  refine ⟨hres, ?_⟩
  rw [hres]
  intro hmem
  obtain ⟨c, hc, hn⟩ := exists_call_of_name hmem
  obtain ⟨m', _, _, hfin, _⟩ := (hev1.trans hev2).fresh c hc
  have hW := hev2.settled name { m with _state := .Waiting } (by simp [hm]) (by simp)
  rw [hn, hW] at hfin
  have hst := congrArg (fun o => o.map Module._state) hfin
  simp only [Option.map_some'] at hst
  have ht := finished_terminal m' (m'._initializer c.getModule m'.info c.args)
  rw [← Option.some.inj hst] at ht
  exact terminal_ne_waiting ht rfl

/-- C6 on an unregistered name, and on `b` whose requirements are `a`
(registered) and `zzz` (not registered): `a` is initialized, `b` is not. -/
theorem undefined_module_witness :
    getModule cycle3 "Z" = none ∧
      (processModule 1 cycle3 "Z" []).1.thrown = some (.error "No \"Z\" module defined") ∧
      (processModule 1 cycle3 "Z" []).2.summary = cycle3.summary ∧
      (processModule 3 missingDep "b" []).1.thrown = some (.error "No \"zzz\" module defined") ∧
      (processModule 3 missingDep "b" []).2.callLog = [("a", [])] ∧
      "b" ∉ (newCalls missingDep (processModule 3 missingDep "b" []).2).map (·.name) := by
  have h1 := undefined_module.1 cycle3 "Z" [] 0 rfl
  have h2 := undefined_module.2 missingDep "b" [] 1
    ⟨"b", .Unprocessed, ["a", "zzz"], constInit .undefined, none⟩ ["a"] [] "zzz" rfl rfl rfl rfl
    rfl
  refine ⟨rfl, ?_, ?_, ?_, ?_, h2.2⟩
  · rw [h1]; decide
  · rw [h1]
  · rw [h2.1]; decide
  · decide

/-! ### A failing initializer -/

theorem noWaiting_of_list {r : Registry} (h : ∀ m ∈ r.moduleMap, m._state ≠ .Waiting) :
    ∀ w m, getModule r w = some m → m._state ≠ .Waiting :=
  fun _ m hm => h m (mem_of_lookup hm)

theorem isNormal_of_eq {α : Type} {c : Completion α} {x : α} (h : c = .normal x) :
    c.isNormal = true := by
  rw [h]; rfl

/-- On a well-formed registry, resolving `D`, which requires `B`, whose
initializer throws: the call returns, `B` is left in `Error` with the rewritten
message, and the initializer of `D` is called and sees `B` so. -/
theorem failed_requirement (fuel : Nat) (r : Registry) (D B : String) (path : List String)
    (mD mB : Module) (msg : String) (hc : Closed r) (ha : Acyclic r)
    (hw : ∀ w m, getModule r w = some m → m._state ≠ .Waiting)
    (hD : getModule r D = some mD) (hDU : mD._state = .Unprocessed)
    (hB : getModule r B = some mB) (hBU : mB._state = .Unprocessed)
    (hmem : B ∈ mD._requirements) (hthrow : ∀ g i a, mB._initializer g i a = .threw msg)
    (hfuel : r.moduleMap.length < fuel) :
    ∃ x r', processModule fuel r D path = (.normal x, r') ∧ terminal x._state ∧
      getModule r' D = some x ∧
      getModule r' B = some (finished mB (.threw msg)) ∧
      ∃ c ∈ newCalls r r', c.name = D ∧ Ordered mD._requirements c ∧
        c.getModule B = some (finished mB (.threw msg)).info := by
  obtain ⟨x, r', hres⟩ := processModule_progress fuel r D path hc ha (by simp [hD])
    (fun w m hwm hwW => absurd hwW (hw w m hwm))
    (lt_of_le_of_lt (unprocessedCount_le r) hfuel)
  have hev : Resolves r r' := by
    have := processModule_resolves fuel r D path
    rwa [hres] at this
  obtain ⟨hx, hxt, _⟩ := processModule_normal hres
  obtain ⟨c, hc', hcn⟩ := exists_call_of_name (hev.complete D mD x hD hDU hx hxt)
  obtain ⟨m, hm, _, _, hP⟩ := hev.fresh c hc'
  rw [hcn, hD] at hm
  cases hm
  have hord : Ordered mD._requirements c := hP
  obtain ⟨i, hi, hit⟩ := hord.mem B hmem
  have hv := hev.snapshot c hc' B i hi hit
  obtain ⟨mB', hmB', hinfo⟩ : ∃ mB', getModule r' B = some mB' ∧ mB'.info = i := by
    unfold view at hv
    cases hg : getModule r' B with
    | none => rw [hg] at hv; simp at hv
    | some y =>
      rw [hg] at hv
      simp only [Option.map_some', Option.some.injEq] at hv
      exact ⟨y, rfl, hv⟩
  have hBt : terminal mB'._state := by
    have : mB'.info._state = i._state := by rw [hinfo]
    rw [← this] at hit
    exact hit
  obtain ⟨cB, hcB, hcBn⟩ := exists_call_of_name (hev.complete B mB mB' hB hBU hmB' hBt)
  obtain ⟨m2, hm2, _, hfin, _⟩ := hev.fresh cB hcB
  rw [hcBn, hB] at hm2
  cases hm2
  rw [hcBn, hthrow] at hfin
  refine ⟨x, r', hres, hxt, hx, hfin, c, hc', hcn, hord, ?_⟩
  rw [hfin] at hmB'
  cases hmB'
  rw [hi, hinfo]

/-- C7. Initializer failure is captured, not propagated: `initializeModule` on
an `Unprocessed` module whose initializer throws an `Error` with message `msg`
returns normally and leaves the module in state `Error`, its error the thrown
one with the message rewritten to `[Module initialization <name>] ` followed
by `msg`; and on a well-formed registry `processModule` of an `Unprocessed`
module that requires such a module returns normally and calls the dependent's
initializer. -/
theorem initializer_failure_captured :
    (∀ (r : Registry) (n : String) (m : Module) (args : List JsValue) (msg : String),
      getModule r n = some m → m._state = .Unprocessed →
      m._initializer (view r) m.info args = .threw msg →
      (initializeModule r (some m) args).1 = .normal () ∧
      getModule (initializeModule r (some m) args).2 n =
        some { m with _state := .Error,
                      _error := some (.error ("[Module initialization " ++ n ++ "] " ++ msg)) }) ∧
    (∀ (fuel : Nat) (r : Registry) (D M : String) (path : List String) (mD mM : Module)
      (msg : String), Closed r → Acyclic r →
      (∀ w m, getModule r w = some m → m._state ≠ .Waiting) →
      getModule r D = some mD → mD._state = .Unprocessed →
      getModule r M = some mM → mM._state = .Unprocessed →
      M ∈ mD._requirements → (∀ g i a, mM._initializer g i a = .threw msg) →
      r.moduleMap.length < fuel →
      (processModule fuel r D path).1.isNormal = true ∧
      D ∈ (newCalls r (processModule fuel r D path).2).map (·.name) ∧
      ∃ mD', getModule (processModule fuel r D path).2 D = some mD' ∧ terminal mD'._state) := by
  constructor
  · intro r n m args msg hm hU hthrow
    obtain ⟨r', he, _, hget, _⟩ := initializeModule_unprocessed hm hU args
    rw [he]
    refine ⟨rfl, ?_⟩
    rw [hget, if_pos rfl, hthrow, ← getModule_name hm]
    rfl
  · intro fuel r D M path mD mM msg hc ha hw hD hDU hM hMU hmem hthrow hfuel
    obtain ⟨x, r', hres, hxt, hx, _, c, hc', hcn, _⟩ :=
      failed_requirement fuel r D M path mD mM msg hc ha hw hD hDU hM hMU hmem hthrow hfuel
    rw [hres]
    exact ⟨rfl, List.mem_map.2 ⟨c, hc', hcn⟩, x, hx, hxt⟩

/-- C7 on `B` throwing `boom` and `D` requiring `B`. -/
theorem initializer_failure_captured_witness :
    (initializeModule failing (getModule failing "B") []).1.isNormal = true ∧
      (initializeModule failing (getModule failing "B") []).2.summary =
        [("B", .Error, some (.error "[Module initialization B] boom")),
         ("D", .Unprocessed, none)] ∧
      (processModule 3 failing "D" []).1.isNormal = true ∧
      "D" ∈ (newCalls failing (processModule 3 failing "D" []).2).map (·.name) ∧
      (processModule 3 failing "D" []).2.summary =
        [("B", .Error, some (.error "[Module initialization B] boom")),
         ("D", .Processed, none)] := by
  have h1 := initializer_failure_captured.1 failing "B"
    ⟨"B", .Unprocessed, [], throwInit "boom", none⟩ [] "boom" rfl rfl rfl
  have h2 := initializer_failure_captured.2 3 failing "D" "B" []
    ⟨"D", .Unprocessed, ["B"], constInit .undefined, none⟩
    ⟨"B", .Unprocessed, [], throwInit "boom", none⟩ "boom"
    (closed_of_list (by decide)) (acyclic_of_rank failingRank (by decide))
    (noWaiting_of_list (by decide)) rfl rfl rfl rfl (by decide) (fun _ _ _ => rfl) (by decide)
  exact ⟨isNormal_of_eq h1.1, by decide, h2.1, h2.2.1, by decide⟩

/-! ### What an initializer is given -/

theorem Ordered.args_eq {reqs : List String} {c : Invocation} (h : Ordered reqs c) :
    c.args.map some = reqs.map (fun req => (c.getModule req).map JsValue.record) ∧
      ∀ a ∈ c.args, ∃ i, a = JsValue.record i ∧ terminal i._state := by
  unfold Ordered at h
  generalize c.args = args at h
  induction h with
  | nil => simp
  | cons h _ ih =>
    obtain ⟨i, hi, ha, ht⟩ := h
    refine ⟨by simp [hi, ha, ih.1], ?_⟩
    intro a' ha'
    rcases List.mem_cons.1 ha' with rfl | h'
    · exact ⟨i, ha, ht⟩
    · exact ih.2 a' h'

/-- C8, as the code has it. The arguments `processModule` passes to the
initializer of a module, after the accessor and the module's own record, are
one per stored requirement in declared order, the i-th being the record of the
i-th requirement, then in state `Processed` or `Error`; no argument is a value
an initializer returned. The module is left as `finished` says: when its
initializer returns, whatever the value, only its state changes, to
`Processed`. -/
theorem initializer_arguments (fuel : Nat) (r : Registry) (name : String) (path : List String)
    (c : Invocation) (hc : c ∈ newCalls r (processModule fuel r name path).2)
    (m : Module) (hm : getModule r c.name = some m) :
    c.args.map some = m._requirements.map (fun req => (c.getModule req).map JsValue.record) ∧
      (∀ a ∈ c.args, ∃ i, a = JsValue.record i ∧ terminal i._state) ∧
      getModule (processModule fuel r name path).2 c.name =
        some (finished m (m._initializer c.getModule m.info c.args)) ∧
      (∀ v, m._initializer c.getModule m.info c.args = .returned v →
        getModule (processModule fuel r name path).2 c.name =
          some { m with _state := .Processed }) := by
  obtain ⟨m', hm', _, hfin, hP⟩ := (processModule_resolves fuel r name path).fresh c hc
  rw [hm] at hm'
  cases hm'
  have hord : Ordered m._requirements c := hP
  refine ⟨hord.args_eq.1, hord.args_eq.2, hfin, ?_⟩
  intro v hv
  rw [hfin, hv]
  rfl

/-- C8 on the scenario of the specification, resolving `b`: its initializer is
given the record of `a`. -/
theorem initializer_arguments_witness :
    "b" ∈ (newCalls abRegistry (processModule 3 abRegistry "b" []).2).map (·.name) ∧
      ∃ c ∈ newCalls abRegistry (processModule 3 abRegistry "b" []).2, c.name = "b" ∧
        c.args.map some = ["a"].map (fun req => (c.getModule req).map JsValue.record) ∧
        (∀ a ∈ c.args, ∃ i, a = JsValue.record i ∧ terminal i._state) := by
  have hmem : "b" ∈ (newCalls abRegistry (processModule 3 abRegistry "b" []).2).map (·.name) := by
    decide
  refine ⟨hmem, ?_⟩
  obtain ⟨c, hc, hn⟩ := exists_call_of_name hmem
  have hm : getModule abRegistry c.name = some ⟨"b", .Unprocessed, ["a"], addOne, none⟩ := by
    rw [hn]; rfl
  have h := initializer_arguments 3 abRegistry "b" [] c hc _ hm
  exact ⟨c, hc, hn, h.1, h.2.1⟩

/-- C8 as stated fails on the scenario of the specification: after the bulk
run, the one argument the initializer of `b` was given is the record of `a`,
not the `1` that the initializer of `a` returned; both modules are
`Processed`. -/
theorem result_not_passed :
    constInit (.number 1) (view abRegistry) ⟨"a", .Unprocessed, [], none⟩ [] =
        .returned (.number 1) ∧
      (processModules 3 abRegistry).2.callLog =
        [("a", []), ("b", [.record ⟨"a", .Processed, [], none⟩])] ∧
      JsValue.record ⟨"a", .Processed, [], none⟩ ≠ JsValue.number 1 ∧
      (processModules 3 abRegistry).2.summary =
        [("a", .Processed, none), ("b", .Processed, none)] :=
  ⟨rfl, by decide, by decide, by decide⟩

theorem mem_foldl_setAdd (xs s : List String) (x : String) :
    x ∈ xs.foldl setAdd s ↔ x ∈ s ∨ x ∈ xs := by
  induction xs generalizing s with
  | nil => simp
  | cons y ys ih =>
    simp only [List.foldl_cons, ih, List.mem_cons]
    unfold setAdd
    split
    · rename_i hy
      constructor
      · rintro (h | h)
        · exact Or.inl h
        · exact Or.inr (Or.inr h)
      · rintro (h | h | h)
        · exact Or.inl h
        · exact Or.inl (h ▸ hy)
        · exact Or.inr h
    · simp only [List.mem_append, List.mem_singleton]
      tauto

theorem nodup_foldl_setAdd (xs s : List String) (h : s.Nodup) : (xs.foldl setAdd s).Nodup := by
  induction xs generalizing s with
  | nil => exact h
  | cons y ys ih =>
    simp only [List.foldl_cons]
    apply ih
    unfold setAdd
    split
    · exact h
    · rename_i hy
      rw [List.nodup_append]
      refine ⟨h, by simp, ?_⟩
      intro a ha ha'
      simp only [List.mem_singleton] at ha'
      exact hy (ha' ▸ ha)

theorem define_fresh {r : Registry} {name : String} (h : getModule r name = none)
    (fuel : Nat) (reqs : List String) (fn : ModuleInitializer) :
    define fuel r name reqs fn =
      if r.initialProcessCompleted then
        match processModules fuel (registered r name reqs fn) with
        | (.diverge, r3) => (.diverge, r3)
        | (_, r3) => (.normal (), r3)
      else (.normal (), registered r name reqs fn) := by
  simp only [define, h, Option.isSome_none, Bool.false_eq_true, if_false]
  rfl

theorem getModule_registered {r : Registry} {name : String} (h : getModule r name = none)
    (reqs : List String) (fn : ModuleInitializer) (k : String) :
    getModule (registered r name reqs fn) k =
      if k = name then some (newModule name reqs fn) else getModule r k := by
  unfold getModule registered at *
  simp only [lookup_append]
  by_cases hk : k = name
  · subst hk
    simp [h, lookup, newModule, Option.orElse]
  · cases hl : lookup r.moduleMap k with
    | none =>
      have hne : ¬ name = k := fun h' => hk h'.symm
      simp [hk, lookup, newModule, Option.orElse, hne]
    | some m => simp [hk, Option.orElse]

/-- C11. Registration record: on a registry in which `name` is not registered
and the bulk run has not completed, `define name reqs fn` returns normally;
afterwards `getModule name` is the record with that name, state `Unprocessed`,
initializer `fn` and, as stored requirements, `reqs` without its first two
entries; the record is added after the others, which are as they were; the
requirement-name set holds what it held and those stored requirements, without
repetition; no initializer is called. -/
theorem define_registers (fuel : Nat) (r : Registry) (name : String) (reqs : List String)
    (fn : ModuleInitializer) (hfresh : getModule r name = none)
    (hflag : r.initialProcessCompleted = false) :
    (define fuel r name reqs fn).1 = .normal () ∧
      getModule (define fuel r name reqs fn).2 name =
        some ⟨name, .Unprocessed, reqs.drop 2, fn, none⟩ ∧
      (define fuel r name reqs fn).2.moduleMap =
        r.moduleMap ++ [⟨name, .Unprocessed, reqs.drop 2, fn, none⟩] ∧
      (∀ k, k ≠ name → getModule (define fuel r name reqs fn).2 k = getModule r k) ∧
      (∀ x, x ∈ (define fuel r name reqs fn).2.requirements ↔
        x ∈ r.requirements ∨ x ∈ reqs.drop 2) ∧
      (r.requirements.Nodup → (define fuel r name reqs fn).2.requirements.Nodup) ∧
      (define fuel r name reqs fn).2.calls = r.calls ∧
      (define fuel r name reqs fn).2.initialProcessCompleted = false := by
  rw [define_fresh hfresh, if_neg (by simp [hflag])]
  refine ⟨rfl, ?_, rfl, ?_, ?_, ?_, rfl, hflag⟩
  · rw [getModule_registered hfresh, if_pos rfl]; rfl
  · intro k hk
    rw [getModule_registered hfresh, if_neg hk]
  · intro x
    exact mem_foldl_setAdd _ _ _
  · intro h
    exact nodup_foldl_setAdd _ _ h

/-- C11 on the registration of `b` after `a`: the stored requirements of
`["require", "exports", "a"]` are `["a"]`, and those of a list of two entries
are empty. -/
theorem define_registers_witness :
    getModule (registryOf [("a", ["require", "exports"], constInit (.number 1))]) "b" = none ∧
      (registryOf [("a", ["require", "exports"], constInit (.number 1))]).initialProcessCompleted
        = false ∧
      getModule (define 5 (registryOf [("a", ["require", "exports"], constInit (.number 1))])
        "b" ["require", "exports", "a"] addOne).2 "b" =
        some ⟨"b", .Unprocessed, ["a"], addOne, none⟩ ∧
      getModule (registryOf [("a", ["require", "exports"], constInit (.number 1))]) "a" =
        some ⟨"a", .Unprocessed, [], constInit (.number 1), none⟩ ∧
      (define 5 (registryOf [("a", ["require", "exports"], constInit (.number 1))])
        "b" ["require", "exports", "a"] addOne).2.requirements = ["a"] :=
  ⟨rfl, rfl,
    (define_registers 5 (registryOf [("a", ["require", "exports"], constInit (.number 1))])
      "b" ["require", "exports", "a"] addOne rfl rfl).2.1, rfl, by decide⟩

/-! ### Frame -/

theorem initializeModule_flag (r : Registry) (module : Option Module) (args : List JsValue) :
    (initializeModule r module args).2.initialProcessCompleted = r.initialProcessCompleted := by
  unfold initializeModule
  cases module with
  | none => rfl
  | some m =>
    simp only
    split
    · rfl
    · split <;> rfl

theorem mapRequirements_flag {f : Registry → String → Completion Module × Registry}
    (hf : ∀ r req, (f r req).2.initialProcessCompleted = r.initialProcessCompleted)
    (reqs : List String) (r : Registry) :
    (mapRequirements f reqs r).2.initialProcessCompleted = r.initialProcessCompleted := by
  induction reqs generalizing r with
  | nil => rfl
  | cons req rest ih =>
    have h1 := hf r req
    cases hc : f r req with
    | mk c r1 =>
      rw [hc] at h1
      cases c with
      | normal m =>
        have h2 := ih r1
        simp only [mapRequirements, hc]
        cases hc2 : mapRequirements f rest r1 with
        | mk c2 r2 =>
          rw [hc2] at h2
          cases c2 <;> exact h2.trans h1
      | abrupt e => simpa only [mapRequirements, hc] using h1
      | diverge => simpa only [mapRequirements, hc] using h1

theorem afterRequirements_flag (name : String) (m : Module)
    (res : Completion (List Module) × Registry) :
    (afterRequirements name m res).2.initialProcessCompleted = res.2.initialProcessCompleted := by
  obtain ⟨c, r2⟩ := res
  cases c with
  | normal ms =>
    have h := initializeModule_flag (setState r2 name .Unprocessed)
      (getModule (setState r2 name .Unprocessed) name) (ms.map (fun a => JsValue.record a.info))
    simp only [afterRequirements]
    cases hc : initializeModule (setState r2 name .Unprocessed)
        (getModule (setState r2 name .Unprocessed) name)
        (ms.map (fun a => JsValue.record a.info)) with
    | mk c4 r4 =>
      rw [hc] at h
      cases c4 <;> exact h
  | abrupt e => rfl
  | diverge => rfl

theorem processModule_flag (fuel : Nat) (r : Registry) (name : String) (path : List String) :
    (processModule fuel r name path).2.initialProcessCompleted = r.initialProcessCompleted := by
  induction fuel generalizing r name path with
  | zero => rfl
  | succ fuel ih =>
    cases hm : getModule r name with
    | none => rw [processModule_none hm]
    | some m =>
      cases hs : m._state with
      | Unprocessed =>
        rw [processModule_unprocessed hm hs, afterRequirements_flag,
          mapRequirements_flag (fun r1 req => ih r1 req _)]
        rfl
      | Waiting => rw [processModule_waiting hm hs]
      | Processed => rw [processModule_terminal hm (Or.inl hs)]
      | Error => rw [processModule_terminal hm (Or.inr hs)]

theorem processEntries_flag (fuel : Nat) (names : List String) (r : Registry) :
    (processEntries fuel names r).2.initialProcessCompleted = r.initialProcessCompleted := by
  induction names generalizing r with
  | nil => rfl
  | cons n rest ih =>
    have h1 := processModule_flag fuel r n []
    cases hc : processModule fuel r n [] with
    | mk c r1 =>
      rw [hc] at h1
      cases c with
      | normal x =>
        simp only [processEntries, hc]
        exact (ih r1).trans h1
      | abrupt e => simpa only [processEntries, hc] using h1
      | diverge => simpa only [processEntries, hc] using h1

theorem registered_static (r : Registry) (name : String) (reqs : List String)
    (fn : ModuleInitializer) :
    (registered r name reqs fn).moduleMap.map Module.static =
      r.moduleMap.map Module.static ++ [newModule name reqs fn] := by
  simp [registered, Module.static, newModule]

theorem define_static {r : Registry} {name : String} (h : getModule r name = none)
    (fuel : Nat) (reqs : List String) (fn : ModuleInitializer) :
    (define fuel r name reqs fn).2.moduleMap.map Module.static =
      r.moduleMap.map Module.static ++ [newModule name reqs fn] := by
  rw [define_fresh h]
  split
  · have hev := (processModules_evolves fuel (registered r name reqs fn)).frame
    rw [registered_static] at hev
    split <;> simp_all
  · exact registered_static r name reqs fn

/-- C18. Frame of resolution: `processModule`, `processModules` and
`initializeModule`, however they end, leave the registered records in their
order with their names, stored requirements and initializers (only states and
errors differ), and leave the requirement-name set; `processModule` and
`initializeModule` also leave the bulk-run flag. A `define` of an unregistered
name adds exactly one record, after the others, and changes no name,
requirement list or initializer of those. -/
theorem resolution_frame :
    (∀ (fuel : Nat) (r : Registry) (name : String) (path : List String),
      (processModule fuel r name path).2.moduleMap.map Module.static =
          r.moduleMap.map Module.static ∧
        (processModule fuel r name path).2.moduleMap.map (·._name) =
          r.moduleMap.map (·._name) ∧
        (processModule fuel r name path).2.requirements = r.requirements ∧
        (processModule fuel r name path).2.initialProcessCompleted =
          r.initialProcessCompleted) ∧
    (∀ (fuel : Nat) (r : Registry),
      (processModules fuel r).2.moduleMap.map Module.static = r.moduleMap.map Module.static ∧
        (processModules fuel r).2.moduleMap.map (·._name) = r.moduleMap.map (·._name) ∧
        (processModules fuel r).2.requirements = r.requirements) ∧
    (∀ (r : Registry) (name : String) (args : List JsValue),
      (initializeModule r (getModule r name) args).2.moduleMap.map Module.static =
          r.moduleMap.map Module.static ∧
        (initializeModule r (getModule r name) args).2.moduleMap.map (·._name) =
          r.moduleMap.map (·._name) ∧
        (initializeModule r (getModule r name) args).2.requirements = r.requirements ∧
        (initializeModule r (getModule r name) args).2.initialProcessCompleted =
          r.initialProcessCompleted) ∧
    (∀ (fuel : Nat) (r : Registry) (name : String) (reqs : List String)
      (fn : ModuleInitializer), getModule r name = none →
      (define fuel r name reqs fn).2.moduleMap.map Module.static =
        r.moduleMap.map Module.static ++ [⟨name, .Unprocessed, reqs.drop 2, fn, none⟩]) := by
  refine ⟨fun fuel r name path => ?_, fun fuel r => ?_, fun r name args => ?_,
    fun fuel r name reqs fn h => define_static h fuel reqs fn⟩
  · have h := processModule_evolves fuel r name path
    exact ⟨h.frame, h.names, h.reqs, processModule_flag fuel r name path⟩
  · have h := processModules_evolves fuel r
    exact ⟨h.frame, h.names, h.reqs⟩
  · have h := initializeModule_evolves r name args
    exact ⟨h.frame, h.names, h.reqs, initializeModule_flag r _ args⟩

/-- C18 on `b` with an unregistered requirement: the resolve throws, the
states change, the rest of the registry does not; and a `define` adds one
record. -/
theorem resolution_frame_witness :
    (processModule 3 missingDep "b" []).2.summary =
        [("a", .Processed, none), ("b", .Waiting, none)] ∧
      (processModule 3 missingDep "b" []).2.moduleMap.map (·._name) = ["a", "b"] ∧
      (processModule 3 missingDep "b" []).2.moduleMap.map (·._requirements) =
        missingDep.moduleMap.map (·._requirements) ∧
      getModule missingDep "c" = none ∧
      (define 3 missingDep "c" ["require", "exports"] (constInit .undefined)).2.moduleMap.map
        Module.static = missingDep.moduleMap.map Module.static ++
          [⟨"c", .Unprocessed, [], constInit .undefined, none⟩] := by
  have h := resolution_frame.1 3 missingDep "b" []
  refine ⟨by decide, ?_, ?_, rfl, resolution_frame.2.2.2 3 missingDep "c" _ _ rfl⟩
  · rw [h.2.1]; decide
  · have := congrArg (List.map (·._requirements)) h.1
    simpa [List.map_map, Function.comp_def, Module.static] using this

/-! ### Terminal states -/

theorem Advances.stay (r : Registry) : Advances r r :=
  ⟨fun _ _ h _ => h, List.prefix_refl _, by simp [newCalls], by simp [newCalls]⟩

theorem Advances.of_evolves {P : Module → Invocation → Prop} {r r' : Registry}
    (h : EvolvesBy P r r') : Advances r r' := by
  refine ⟨h.settled, by rw [h.frame], h.calls_eq, ?_⟩
  intro c hc
  obtain ⟨m, _, _, hfin, _⟩ := h.fresh c hc
  exact ⟨_, hfin, finished_terminal _ _⟩

theorem Advances.step {a b c : Registry} (h₁ : Advances a b) (h₂ : Advances b c) :
    Advances a c := by
  have hcalls : c.calls = a.calls ++ (newCalls a b ++ newCalls b c) := by
    rw [h₂.calls_eq, h₁.calls_eq, List.append_assoc]
  have hn : newCalls a c = newCalls a b ++ newCalls b c := newCalls_of_eq hcalls
  refine ⟨fun n m hm hU => h₂.settled n m (h₁.settled n m hm hU) hU,
    h₁.grows.trans h₂.grows, by rw [hn]; exact hcalls, ?_⟩
  rw [hn]
  intro x hx
  rcases List.mem_append.1 hx with hx | hx
  · obtain ⟨m, hm, ht⟩ := h₁.handled x hx
    exact ⟨m, h₂.settled _ _ hm (terminal_ne_unprocessed ht), ht⟩
  · exact h₂.handled x hx

theorem registered_advances {r : Registry} {name : String} (h : getModule r name = none)
    (reqs : List String) (fn : ModuleInitializer) : Advances r (registered r name reqs fn) := by
  refine ⟨?_, ?_, by simp [newCalls, registered], by simp [newCalls, registered]⟩
  · intro n m hm _
    have hn : n ≠ name := by
      rintro rfl
      rw [h] at hm
      cases hm
    rw [getModule_registered h, if_neg hn]
    exact hm
  · rw [registered_static]
    exact List.prefix_append _ _

theorem define_advances (fuel : Nat) (r : Registry) (name : String) (reqs : List String)
    (fn : ModuleInitializer) : Advances r (define fuel r name reqs fn).2 := by
  cases h : getModule r name with
  | some m =>
    have hd : (define fuel r name reqs fn).2 = r := by simp [define, h]
    rw [hd]
    exact Advances.stay r
  | none =>
    rw [define_fresh h]
    split
    · have hev := Advances.of_evolves (processModules_evolves fuel (registered r name reqs fn))
      have := (registered_advances h reqs fn).step hev
      split <;> simp_all
    · exact registered_advances h reqs fn

theorem perform_advances (fuel : Nat) (r : Registry) (call : Call) :
    Advances r (perform fuel r call) := by
  cases call with
  | define name reqs fn => exact define_advances fuel r name reqs fn
  | processModule name => exact Advances.of_evolves (processModule_evolves fuel r name [])
  | processModules => exact Advances.of_evolves (processModules_evolves fuel r)
  | initializeModuleByName name => exact Advances.of_evolves (initializeModule_evolves r name [])

theorem run_advances (fuel : Nat) (calls : List Call) (r : Registry) :
    Advances r (run fuel calls r) := by
  induction calls generalizing r with
  | nil => exact Advances.stay r
  | cons call rest ih => exact (perform_advances fuel r call).step (ih _)

theorem mapRequirements_abrupt_inv {f : Registry → String → Completion Module × Registry}
    {reqs : List String} {r r' : Registry} {e : JsError}
    (h : mapRequirements f reqs r = (.abrupt e, r')) :
    ∃ pre req post ms ri, reqs = pre ++ req :: post ∧
      mapRequirements f pre r = (.normal ms, ri) ∧ f ri req = (.abrupt e, r') := by
  induction reqs generalizing r with
  | nil => simp [mapRequirements] at h
  | cons q qs ih =>
    cases hq : f r q with
    | mk c r1 =>
      cases c with
      | normal x =>
        simp only [mapRequirements, hq] at h
        cases hqs : mapRequirements f qs r1 with
        | mk c2 r2 =>
          rw [hqs] at h
          cases c2 with
          | normal xs => simp at h
          | abrupt e2 =>
            simp only [Prod.mk.injEq, Completion.abrupt.injEq] at h
            obtain ⟨rfl, rfl⟩ := h
            obtain ⟨pre, req, post, ms, ri, hsplit, hpre, hreq⟩ := ih hqs
            refine ⟨q :: pre, req, post, x :: ms, ri, by rw [hsplit]; rfl, ?_, hreq⟩
            simp only [mapRequirements, hq, hpre]
          | diverge => simp at h
      | abrupt e1 =>
        simp only [mapRequirements, hq, Prod.mk.injEq, Completion.abrupt.injEq] at h
        obtain ⟨rfl, rfl⟩ := h
        exact ⟨[], q, qs, [], r, rfl, rfl, hq⟩
      | diverge => simp [mapRequirements, hq] at h

theorem afterRequirements_abrupt_inv {r : Registry} {name : String} {m : Module}
    {res : Completion (List Module) × Registry} {e : JsError} {r' : Registry}
    (hm : getModule r name = some m) (hU : m._state = .Unprocessed)
    (hev : Evolves (setState r name .Waiting) res.2)
    (h : afterRequirements name m res = (.abrupt e, r')) : res = (.abrupt e, r') := by
  obtain ⟨c, r2⟩ := res
  cases c with
  | normal ms =>
    obtain ⟨x, r4, hx⟩ := afterRequirements_returns ms hm hU hev
    rw [hx] at h
    simp at h
  | abrupt e2 =>
    simp only [afterRequirements, Prod.mk.injEq, Completion.abrupt.injEq] at h
    obtain ⟨rfl, rfl⟩ := h
    rfl
  | diverge => simp [afterRequirements] at h

/-- What a throwing resolve has done. The modules `chain`, from `name` down to
the call that threw, each a stored requirement of the one before, were
`Unprocessed` and are left `Waiting`; no other module became `Waiting`; the
call that threw was for `culprit`, which is unregistered (the error names it)
or was found `Waiting` (the error lists the visited path, the chain and it). -/
theorem processModule_abrupt {fuel : Nat} {r r' : Registry} {name : String}
    {path : List String} {e : JsError} (h : processModule fuel r name path = (.abrupt e, r')) :
    ∃ chain culprit, (chain ++ [culprit]).head? = some name ∧
      ((∃ m, getModule r name = some m ∧ m._state = .Unprocessed) → chain.head? = some name) ∧
      List.Chain' (Dep r) (chain ++ [culprit]) ∧
      (∀ x ∈ chain, ∃ mx, getModule r x = some mx ∧ mx._state = .Unprocessed ∧
        getModule r' x = some { mx with _state := .Waiting }) ∧
      (∀ n x, getModule r' n = some x → x._state = .Waiting →
        getModule r n = some x ∨ n ∈ chain) ∧
      ((getModule r culprit = none ∧ e = undefinedError culprit) ∨
        ((∃ mw, getModule r' culprit = some mw ∧ mw._state = .Waiting) ∧
          e = circularError (path ++ chain) culprit)) := by
  induction fuel generalizing r r' name path e with
  | zero => simp [processModule] at h
  | succ fuel ih =>
    cases hm : getModule r name with
    | none =>
      rw [processModule_none hm] at h
      simp only [Prod.mk.injEq, Completion.abrupt.injEq] at h
      obtain ⟨rfl, rfl⟩ := h
      refine ⟨[], name, rfl, ?_, by simp, by simp, fun n x hx _ => Or.inl hx,
        Or.inl ⟨hm, rfl⟩⟩
      rintro ⟨m, hm', _⟩
      cases hm'
    | some m =>
      cases hs : m._state with
      | Unprocessed =>
        rw [processModule_unprocessed hm hs] at h
        have hev1 : Evolves r (setState r name .Waiting) := evolves_setWaiting hm hs
        have hevw := mapRequirements_evolves
          (fun r1 req => processModule_evolves fuel r1 req (path ++ [name])) m._requirements
          (setState r name .Waiting)
        have hres := afterRequirements_abrupt_inv hm hs hevw h
        obtain ⟨pre, req, post, ms, ri, hsplit, hpre, hreq⟩ := mapRequirements_abrupt_inv hres
        have hevp : Evolves (setState r name .Waiting) ri := by
          have := mapRequirements_evolves
            (fun r1 req => processModule_evolves fuel r1 req (path ++ [name])) pre
            (setState r name .Waiting)
          rwa [hpre] at this
        have hnw : NoNewWaiting (setState r name .Waiting) ri :=
          (mapRequirements_normal
            (fun r1 req => processModule_evolves fuel r1 req (path ++ [name]))
            (fun r1 req y r1' hy => processModule_normal hy) hpre).2
        have hevr : Evolves ri r' := by
          have := processModule_evolves fuel ri req (path ++ [name])
          rwa [hreq] at this
        have hev : Evolves r ri := hev1.trans hevp
        obtain ⟨chain, culprit, hhead, _, hchain, hall, hwait, hcul⟩ := ih hreq
        have hW1 : getModule (setState r name .Waiting) name =
            some { m with _state := .Waiting } := by simp [hm]
        have hWi := hevp.settled _ _ hW1 (by simp)
        have hW' := hevr.settled _ _ hWi (by simp)
        refine ⟨name :: chain, culprit, rfl, fun _ => rfl, ?_, ?_, ?_, ?_⟩
        · rw [List.cons_append, List.chain'_cons']
          refine ⟨?_, by rw [← hev.dep_eq]; exact hchain⟩
          intro y hy
          rw [hhead] at hy
          cases hy
          exact ⟨m, hm, by rw [hsplit]; simp⟩
        · intro x hx
          rcases List.mem_cons.1 hx with rfl | hx
          · exact ⟨m, hm, hs, hW'⟩
          · obtain ⟨mx, hmx, hxU, hmx'⟩ := hall x hx
            exact ⟨mx, hev.untouched x mx hmx hxU, hxU, hmx'⟩
        · intro n x hx hxW
          rcases hwait n x hx hxW with h1 | h1
          · by_cases hn : n = name
            · exact Or.inr (hn ▸ List.mem_cons_self _ _)
            · have := hnw n x h1 hxW
              exact Or.inl (by simpa [hn] using this)
          · exact Or.inr (List.mem_cons_of_mem _ h1)
        · rcases hcul with ⟨hnone, he⟩ | ⟨hmw, he⟩
          · exact Or.inl ⟨(hev.none_iff culprit).1 hnone, he⟩
          · refine Or.inr ⟨hmw, ?_⟩
            rw [he]
            simp
      | Waiting =>
        rw [processModule_waiting hm hs] at h
        simp only [Prod.mk.injEq, Completion.abrupt.injEq] at h
        obtain ⟨rfl, rfl⟩ := h
        refine ⟨[], name, rfl, ?_, by simp, by simp, fun n x hx _ => Or.inl hx,
          Or.inr ⟨⟨m, hm, hs⟩, by simp [circularError]⟩⟩
        rintro ⟨m', hm', hU'⟩
        cases hm'
        rw [hs] at hU'
        cases hU'
      | Processed => rw [processModule_terminal hm (Or.inl hs)] at h; simp at h
      | Error => rw [processModule_terminal hm (Or.inr hs)] at h; simp at h

theorem afterRequirements_diverge_inv {r : Registry} {name : String} {m : Module}
    {res : Completion (List Module) × Registry}
    (hm : getModule r name = some m) (hU : m._state = .Unprocessed)
    (hev : Evolves (setState r name .Waiting) res.2)
    (h : res.1 ≠ .diverge) : (afterRequirements name m res).1 ≠ .diverge := by
  obtain ⟨c, r2⟩ := res
  cases c with
  | normal ms =>
    obtain ⟨x, r4, hx⟩ := afterRequirements_returns ms hm hU hev
    rw [hx]
    simp
  | abrupt e => simp [afterRequirements]
  | diverge => exact absurd rfl h

theorem walk_terminates {fuel : Nat} {f : Registry → String → Completion Module × Registry}
    (hev : ∀ r req, Evolves r (f r req).2)
    (hf : ∀ r req, unprocessedCount r < fuel → (f r req).1 ≠ .diverge)
    (reqs : List String) (r : Registry) (hfuel : unprocessedCount r < fuel) :
    (mapRequirements f reqs r).1 ≠ .diverge := by
  induction reqs generalizing r with
  | nil => simp [mapRequirements]
  | cons req rest ih =>
    have h1 := hf r req hfuel
    have he := hev r req
    cases hc : f r req with
    | mk c r1 =>
      rw [hc] at h1 he
      cases c with
      | normal m =>
        have h2 := ih r1 (lt_of_le_of_lt he.count_le hfuel)
        simp only [mapRequirements, hc]
        cases hc2 : mapRequirements f rest r1 with
        | mk c2 r2 =>
          rw [hc2] at h2
          cases c2 with
          | normal ms => simp
          | abrupt e => simp
          | diverge => exact absurd rfl h2
      | abrupt e => simp [mapRequirements, hc]
      | diverge => exact absurd rfl h1

/-- With a recursion bound above the number of `Unprocessed` modules, a resolve
returns or throws. -/
theorem processModule_terminates (fuel : Nat) (r : Registry) (name : String)
    (path : List String) (hfuel : unprocessedCount r < fuel) :
    (processModule fuel r name path).1 ≠ .diverge := by
  induction fuel generalizing r name path with
  | zero => omega
  | succ fuel ih =>
    cases hm : getModule r name with
    | none => rw [processModule_none hm]; simp
    | some m =>
      cases hs : m._state with
      | Unprocessed =>
        rw [processModule_unprocessed hm hs]
        refine afterRequirements_diverge_inv hm hs
          (mapRequirements_evolves (fun r1 req => processModule_evolves fuel r1 req _) _ _) ?_
        exact walk_terminates (fun r1 req => processModule_evolves fuel r1 req _)
          (fun r1 req h1 => ih r1 req _ h1) _ _
          (by have := count_setWaiting_lt hm hs; omega)
      | Waiting => rw [processModule_waiting hm hs]; simp
      | Processed => rw [processModule_terminal hm (Or.inl hs)]; simp
      | Error => rw [processModule_terminal hm (Or.inr hs)]; simp

theorem mapRequirements_agree {f g : Registry → String → Completion Module × Registry}
    (hfg : ∀ r req, (f r req).1 ≠ .diverge → g r req = f r req)
    (reqs : List String) (r : Registry) (h : (mapRequirements f reqs r).1 ≠ .diverge) :
    mapRequirements g reqs r = mapRequirements f reqs r := by
  induction reqs generalizing r with
  | nil => rfl
  | cons req rest ih =>
    cases hc : f r req with
    | mk c r1 =>
      cases c with
      | normal m =>
        have hg := hfg r req (by rw [hc]; simp)
        rw [hc] at hg
        simp only [mapRequirements, hc, hg] at h ⊢
        have hrest : (mapRequirements f rest r1).1 ≠ .diverge := by
          intro hd
          cases hc2 : mapRequirements f rest r1 with
          | mk c2 r2 =>
            rw [hc2] at hd h
            simp only at hd
            subst hd
            exact h rfl
        rw [ih r1 hrest]
      | abrupt e =>
        have hg := hfg r req (by rw [hc]; simp)
        rw [hc] at hg
        simp only [mapRequirements, hc, hg]
      | diverge => simp [mapRequirements, hc] at h

/-- A resolve that returns or throws within a recursion bound does the same
within a larger one. -/
theorem processModule_fuel_succ (fuel : Nat) (r : Registry) (name : String)
    (path : List String) (h : (processModule fuel r name path).1 ≠ .diverge) :
    processModule (fuel + 1) r name path = processModule fuel r name path := by
  induction fuel generalizing r name path with
  | zero => exact absurd rfl h
  | succ fuel ih =>
    cases hm : getModule r name with
    | none => rw [processModule_none hm, processModule_none hm]
    | some m =>
      cases hs : m._state with
      | Unprocessed =>
        rw [processModule_unprocessed hm hs] at h ⊢
        rw [processModule_unprocessed hm hs]
        have hw : (mapRequirements (fun r1 req => processModule fuel r1 req (path ++ [name]))
            m._requirements (setState r name .Waiting)).1 ≠ .diverge := by
          intro hd
          apply h
          cases hc : mapRequirements (fun r1 req => processModule fuel r1 req (path ++ [name]))
              m._requirements (setState r name .Waiting) with
          | mk c r2 =>
            rw [hc] at hd
            simp only at hd
            subst hd
            rfl
        rw [mapRequirements_agree (fun r1 req h1 => ih r1 req (path ++ [name]) h1) _ _ hw]
      | Waiting => rw [processModule_waiting hm hs, processModule_waiting hm hs]
      | Processed =>
        rw [processModule_terminal hm (Or.inl hs), processModule_terminal hm (Or.inl hs)]
      | Error =>
        rw [processModule_terminal hm (Or.inr hs), processModule_terminal hm (Or.inr hs)]

theorem processModule_fuel_add (fuel k : Nat) (r : Registry) (name : String)
    (path : List String) (h : (processModule fuel r name path).1 ≠ .diverge) :
    processModule (fuel + k) r name path = processModule fuel r name path := by
  induction k with
  | zero => rfl
  | succ k ih =>
    rw [← Nat.add_assoc, processModule_fuel_succ (fuel + k) r name path (by rw [ih]; exact h), ih]

/-- C16. Termination: on every registry, whatever the states and the
requirement graph, `processModule` within a recursion depth of the number of
registered modules plus one returns or throws, and a larger bound changes
nothing of the result: the depth of the recursion never exceeds that number.
The reason is that marking an `Unprocessed` module `Waiting` lowers the number
of `Unprocessed` modules, which no resolve raises. -/
theorem processModule_terminates_within (r : Registry) (name : String) (path : List String) :
    (processModule (r.moduleMap.length + 1) r name path).1 ≠ .diverge ∧
    (∀ fuel, r.moduleMap.length < fuel →
      processModule fuel r name path =
        processModule (r.moduleMap.length + 1) r name path) ∧
    (∀ m, getModule r name = some m → m._state = .Unprocessed →
      unprocessedCount (setState r name .Waiting) < unprocessedCount r) ∧
    (∀ fuel, unprocessedCount (processModule fuel r name path).2 ≤ unprocessedCount r) ∧
    unprocessedCount r ≤ r.moduleMap.length := by
  have h0 := processModule_terminates (r.moduleMap.length + 1) r name path
    (Nat.lt_succ_of_le (unprocessedCount_le r))
  refine ⟨h0, ?_, fun m hm hU => count_setWaiting_lt hm hU,
    fun fuel => (processModule_evolves fuel r name path).count_le, unprocessedCount_le r⟩
  intro fuel hfuel
  obtain ⟨k, rfl⟩ : ∃ k, fuel = r.moduleMap.length + 1 + k :=
    ⟨fuel - (r.moduleMap.length + 1), by omega⟩
  exact processModule_fuel_add _ k r name path h0

/-- C16 on the cycle `A → B → C → A` (three modules, depth four) and on the
diamond. -/
theorem processModule_terminates_within_witness :
    (processModule 4 cycle3 "A" []).1.thrown = some (circularError ["A", "B", "C"] "A") ∧
      (processModule 3 cycle3 "A" []).1.thrown = none ∧
      (processModule 3 cycle3 "A" []).1.isNormal = false ∧
      (processModule (cycle3.moduleMap.length + 1) cycle3 "A" []).1 ≠ .diverge ∧
      getModule cycle3 "A" = some ⟨"A", .Unprocessed, ["B"], constInit .undefined, none⟩ ∧
      unprocessedCount (setState cycle3 "A" .Waiting) < unprocessedCount cycle3 ∧
      processModule 9 diamond "D" [] = processModule (diamond.moduleMap.length + 1) diamond "D" [] := by
  have h := processModule_terminates_within cycle3 "A" []
  have h2 := processModule_terminates_within diamond "D" []
  exact ⟨by decide, by decide, by decide, h.1, rfl, h.2.2.1 _ rfl rfl,
    h2.2.1 9 (by decide)⟩

/-! ### The bulk-run flag and eager resolution -/

theorem processModules_flag (fuel : Nat) (r : Registry) :
    (processModules fuel r).2.initialProcessCompleted =
      (r.initialProcessCompleted || (processModules fuel r).1.isNormal) := by
  have h := processEntries_flag fuel (r.moduleMap.map (·._name)) r
  unfold processModules
  cases hc : processEntries fuel (r.moduleMap.map (·._name)) r with
  | mk c r1 =>
    rw [hc] at h
    cases c with
    | normal x => simp [Completion.isNormal]
    | abrupt e => simpa [Completion.isNormal] using h
    | diverge => simpa [Completion.isNormal] using h

theorem define_pass {r : Registry} {name : String} (h : getModule r name = none)
    (hflag : r.initialProcessCompleted = true) (fuel : Nat) (reqs : List String)
    (fn : ModuleInitializer) :
    (define fuel r name reqs fn).2 = (processModules fuel (registered r name reqs fn)).2 := by
  rw [define_fresh h, if_pos hflag]
  split <;> simp_all

/-- C13, as the code has it. After `processModules`, `initialProcessCompleted`
is true when it was true before or when the run returned, that is when no
resolve in its loop threw; a throw leaves the flag as it was. A `define` of an
unregistered name runs its own resolve pass when the flag is true and none
when it is false. -/
theorem bulk_run_flag (fuel : Nat) (r : Registry) :
    (processModules fuel r).2.initialProcessCompleted =
      (r.initialProcessCompleted || (processModules fuel r).1.isNormal) ∧
    (∀ name reqs fn, getModule r name = none → r.initialProcessCompleted = true →
      (define fuel r name reqs fn).2 = (processModules fuel (registered r name reqs fn)).2) ∧
    (∀ name reqs fn, getModule r name = none → r.initialProcessCompleted = false →
      (define fuel r name reqs fn).2 = registered r name reqs fn) := by
  refine ⟨processModules_flag fuel r, fun name reqs fn h hflag => define_pass h hflag fuel reqs fn,
    fun name reqs fn h hflag => ?_⟩
  rw [define_fresh h, if_neg (by simp [hflag])]

/-- C13 as amended, on the diamond, where the run returns, and on a later
`define`, which runs its own pass. -/
theorem bulk_run_flag_witness :
    (processModules 5 diamond).2.initialProcessCompleted = true ∧
      getModule (processModules 5 diamond).2 "E" = none ∧
      (define 5 (processModules 5 diamond).2 "E" ["require", "exports", "D"] addOne).2.summary =
        [("D", .Processed, none), ("B", .Processed, none), ("C", .Processed, none),
         ("A", .Processed, none), ("E", .Processed, none)] := by
  have h := bulk_run_flag 5 (processModules 5 diamond).2
  refine ⟨rfl, rfl, ?_⟩
  rw [h.2.1 "E" ["require", "exports", "D"] addOne rfl rfl]
  decide

/-- C13 as stated fails: on the cycle `A → B → C → A`, and on `b` with an
unregistered requirement, the bulk run throws and leaves
`initialProcessCompleted` false; a later `define` then resolves nothing. -/
theorem bulk_run_not_armed :
    (processModules 4 cycle3).1.thrown = some (circularError ["A", "B", "C"] "A") ∧
      (processModules 4 cycle3).2.initialProcessCompleted = false ∧
      (processModules 3 missingDep).1.thrown = some (undefinedError "zzz") ∧
      (processModules 3 missingDep).2.initialProcessCompleted = false ∧
      (define 5 (processModules 3 missingDep).2 "c" ["require", "exports"]
        (constInit .undefined)).2.summary =
        [("a", .Processed, none), ("b", .Waiting, none), ("c", .Unprocessed, none)] :=
  ⟨by decide, by decide, by decide, by decide, by decide⟩

theorem circularMessage_nil (name : String) :
    circularMessage [] name = "Circular dependency! Dependency chain: " ++ quoted name := rfl

/-- C19. A failed resolve leaves its path stuck in `Waiting`: when
`processModule name` on an `Unprocessed` module throws, the modules from `name`
down to the call that threw, each a stored requirement of the one before, are
left `Waiting`, and no other module becomes `Waiting`; the call that threw met
a name that is unregistered or a module found `Waiting`. After any further
calls these modules are still `Waiting`, the initializer of `name` has not been
called, and `processModule name` with an empty visited path throws
`Circular dependency! Dependency chain: "<name>"`, changing nothing. -/
theorem failed_resolve_stuck (fuel : Nat) (r : Registry) (name : String) (path : List String)
    (m : Module) (e : JsError) (hm : getModule r name = some m)
    (hU : m._state = .Unprocessed) (he : (processModule fuel r name path).1 = .abrupt e) :
    getModule (processModule fuel r name path).2 name = some { m with _state := .Waiting } ∧
    (∃ chain culprit, chain.head? = some name ∧ List.Chain' (Dep r) (chain ++ [culprit]) ∧
      (∀ x ∈ chain, ∃ mx, getModule r x = some mx ∧ mx._state = .Unprocessed ∧
        getModule (processModule fuel r name path).2 x = some { mx with _state := .Waiting }) ∧
      (∀ n x, getModule (processModule fuel r name path).2 n = some x → x._state = .Waiting →
        getModule r n = some x ∨ n ∈ chain) ∧
      ((getModule r culprit = none ∧ e = undefinedError culprit) ∨
        ((∃ mw, getModule (processModule fuel r name path).2 culprit = some mw ∧
          mw._state = .Waiting) ∧ e = circularError (path ++ chain) culprit)) ∧
      ∀ (fuel' : Nat) (calls : List Call), ∀ x ∈ chain, ∃ mx,
        getModule (run fuel' calls (processModule fuel r name path).2) x = some mx ∧
          mx._state = .Waiting) ∧
    (∀ (fuel' : Nat) (calls : List Call),
      getModule (run fuel' calls (processModule fuel r name path).2) name =
        some { m with _state := .Waiting } ∧
      name ∉ (newCalls r (run fuel' calls (processModule fuel r name path).2)).map (·.name) ∧
      ∀ k, processModule (k + 1) (run fuel' calls (processModule fuel r name path).2) name [] =
        (.abrupt (.error ("Circular dependency! Dependency chain: " ++ quoted name)),
          run fuel' calls (processModule fuel r name path).2)) := by
  have h' : processModule fuel r name path =
      (.abrupt e, (processModule fuel r name path).2) := by rw [← he]
  obtain ⟨chain, culprit, _, hhead, hchain, hall, hwait, hcul⟩ := processModule_abrupt h'
  have hhead' := hhead ⟨m, hm, hU⟩
  have hmem : name ∈ chain := by
    cases chain with
    | nil => simp at hhead'
    | cons a t =>
      simp only [List.head?_cons, Option.some.injEq] at hhead'
      rw [hhead']
      exact List.mem_cons_self _ _
  have hW : getModule (processModule fuel r name path).2 name =
      some { m with _state := .Waiting } := by
    obtain ⟨mx, hmx, _, hmx'⟩ := hall name hmem
    rw [hm] at hmx
    cases hmx
    exact hmx'
  have hlater : ∀ (fuel' : Nat) (calls : List Call) (x : String) (mx : Module),
      getModule (processModule fuel r name path).2 x = some mx → mx._state = .Waiting →
      getModule (run fuel' calls (processModule fuel r name path).2) x = some mx :=
    fun fuel' calls x mx hx hxW =>
      (run_advances fuel' calls _).settled x mx hx (by simp [hxW])
  refine ⟨hW, ⟨chain, culprit, hhead', hchain, hall, hwait, hcul, ?_⟩, ?_⟩
  · intro fuel' calls x hx
    obtain ⟨mx, _, _, hmx'⟩ := hall x hx
    exact ⟨_, hlater fuel' calls x _ hmx' rfl, rfl⟩
  · intro fuel' calls
    have hW2 := hlater fuel' calls name _ hW rfl
    refine ⟨hW2, ?_, fun k => ?_⟩
    · intro hin
      obtain ⟨c, hc, hcn⟩ := exists_call_of_name hin
      have hadv := (Advances.of_evolves (processModule_evolves fuel r name path)).step
        (run_advances fuel' calls (processModule fuel r name path).2)
      obtain ⟨mc, hmc, hmct⟩ := hadv.handled c hc
      rw [hcn, hW2] at hmc
      cases hmc
      exact terminal_ne_waiting hmct rfl
    · rw [processModule_waiting hW2 rfl, circularMessage_nil]

/-- C19 on `b`, whose requirement `zzz` is not registered, in a graph without a
cycle: `b` is left `Waiting`; after `zzz` has been registered and the bulk run
repeated, `b` is still `Waiting`, and resolving it throws the circular
dependency error on `"b"` alone. -/
theorem failed_resolve_stuck_witness :
    getModule missingDep "b" =
        some ⟨"b", .Unprocessed, ["a", "zzz"], constInit .undefined, none⟩ ∧
      (processModule 3 missingDep "b" []).1 = .abrupt (undefinedError "zzz") ∧
      (run 5 [.define "zzz" ["require", "exports"] (constInit .undefined), .processModules]
        (processModule 3 missingDep "b" []).2).summary =
        [("a", .Processed, none), ("b", .Waiting, none), ("zzz", .Unprocessed, none)] ∧
      (processModule 3
        (run 5 [.define "zzz" ["require", "exports"] (constInit .undefined), .processModules]
          (processModule 3 missingDep "b" []).2) "b" []).1.thrown =
        some (.error "Circular dependency! Dependency chain: \"b\"") ∧
      "b" ∉ (newCalls missingDep
        (run 5 [.define "zzz" ["require", "exports"] (constInit .undefined), .processModules]
          (processModule 3 missingDep "b" []).2)).map (·.name) := by
  have he : (processModule 3 missingDep "b" []).1 = .abrupt (undefinedError "zzz") := rfl
  have h := failed_resolve_stuck 3 missingDep "b" []
    ⟨"b", .Unprocessed, ["a", "zzz"], constInit .undefined, none⟩ (undefinedError "zzz") rfl rfl he
  have h2 := h.2.2 5
    [.define "zzz" ["require", "exports"] (constInit .undefined), .processModules]
  refine ⟨rfl, he, by decide, ?_, h2.2.1⟩
  rw [h2.2.2 2]
  decide

/-! ### The state a running initializer sees -/

end Dig
